import Mathlib

/-!
Verification of the larbatch repository's dimension evaluator and utility
functions against their natural-language specification.

Python strings are modelled as lists of characters (`PyStr`); Python
exceptions as `Except PyErr`.  Each definition is a shallow embedding of the
corresponding function in `project_utilities.py`, `larbatch_utilities.py` or
`artroot_filter.py`.
-/

set_option autoImplicit false

abbrev PyStr := List Char

/-- Errors a Python function can raise. -/
inductive PyErr where
  | indexError : PyErr
  | keyError : PyErr
  | valueError : PyErr
  | typeError : PyErr
  | samError : PyErr
  | runtimeError : PyStr → PyErr
  deriving DecidableEq, Repr

/-- Whitespace test used by Python str.split with no arguments. -/
def pyIsSpace (c : Char) : Bool :=
  decide (c = ' ' ∨ c = '\t' ∨ c = '\n' ∨ c = '\r')

/-- Worker for `pySplitWs`: accumulates the current word. -/
def splitAux : PyStr → PyStr → List PyStr
  | [], acc => if acc = [] then [] else [acc]
  | c :: cs, acc =>
      if pyIsSpace c then
        (if acc = [] then splitAux cs [] else acc :: splitAux cs [])
      else splitAux cs (acc ++ [c])

/-- Python str.split() with no argument: split on runs of whitespace. -/
def pySplitWs (s : PyStr) : List PyStr := splitAux s []

/-- Worker for `pySplitOn`. -/
def splitOnAux (sep : Char) : PyStr → PyStr → List PyStr
  | [], acc => [acc]
  | c :: cs, acc =>
      if c = sep then acc :: splitOnAux sep cs []
      else splitOnAux sep cs (acc ++ [c])

/-- Python str.split(sep) with a one-character separator; keeps empty pieces. -/
def pySplitOn (s : PyStr) (sep : Char) : List PyStr := splitOnAux sep s []

/-- Boolean list-prefix test (Python str.startswith). -/
def pyPrefixB : PyStr → PyStr → Bool
  | [], _ => true
  | _ :: _, [] => false
  | a :: as, b :: bs => decide (a = b) && pyPrefixB as bs

/-- Whether the pattern `p` occurs as a contiguous substring of `s`. -/
def occursB (s p : PyStr) : Bool :=
  match s with
  | [] => pyPrefixB p []
  | _ :: cs => pyPrefixB p s || occursB cs p

/-- Python str.find restricted to success/failure: index of the first
occurrence of `p` in `s`, if any. -/
def pyFindOpt (s p : PyStr) : Option Nat :=
  if pyPrefixB p s then some 0
  else
    match s with
    | [] => none
    | _ :: cs => (pyFindOpt cs p).map (· + 1)

/-- Worker for `pyReplace`; replaces occurrences left to right.  The fuel
argument (an upper bound on the string length) makes the recursion
structural; `pyReplace` supplies enough fuel. -/
def replGo (pat r : PyStr) : Nat → PyStr → PyStr
  | 0, s => s
  | fuel + 1, s =>
      match s with
      | [] => []
      | c :: cs =>
          if pyPrefixB pat (c :: cs) = true then
            r ++ replGo pat r fuel ((c :: cs).drop pat.length)
          else c :: replGo pat r fuel cs

/-- Python str.replace (all non-overlapping occurrences, left to right). -/
def pyReplace (pat r s : PyStr) : PyStr :=
  if pat = [] then s else replGo pat r s.length s

/-- Python str.strip(): remove leading and trailing whitespace. -/
def pyStrip (s : PyStr) : PyStr :=
  ((s.dropWhile pyIsSpace).reverse.dropWhile pyIsSpace).reverse

/-- Python str.isdigit restricted to ASCII decimal digits. -/
def pyIsDigitStr (s : PyStr) : Bool :=
  decide (s ≠ []) && s.all Char.isDigit

/-- Numeric value of a string of decimal digits. -/
def natOfDigits (s : PyStr) : Nat :=
  s.foldl (fun n c => 10 * n + (c.toNat - 48)) 0

/-- Python int(s) on a string whose stripped form is a digit string,
possibly signed; ValueError otherwise. -/
def pyIntParse (s : PyStr) : Except PyErr Int :=
  match pyStrip s with
  | '-' :: rest =>
      if pyIsDigitStr rest then .ok (-(natOfDigits rest : Int)) else .error .valueError
  | '+' :: rest =>
      if pyIsDigitStr rest then .ok (natOfDigits rest : Int) else .error .valueError
  | t => if pyIsDigitStr t then .ok (natOfDigits t : Int) else .error .valueError

/-- Concatenation of the words each preceded by a single space.  This is the
shape of strings produced by `expandDefnames`. -/
def spacedJoin (ws : List PyStr) : PyStr :=
  match ws with
  | [] => []
  | w :: rest => (' ' :: w) ++ spacedJoin rest

/-- Words joined by single spaces with no leading space. -/
def joinW (ws : List PyStr) : PyStr :=
  match ws with
  | [] => []
  | w :: rest => w ++ spacedJoin rest

/-- A word is clean when it is nonempty and contains no whitespace. -/
def noWsWord (w : PyStr) : Bool :=
  decide (w ≠ []) && w.all (fun c => !pyIsSpace c)

section StringLemmas

theorem splitAux_word (w : PyStr) (hw : ∀ c ∈ w, pyIsSpace c = false) :
    ∀ t acc, splitAux (w ++ t) acc = splitAux t (acc ++ w) := by
  induction w with
  | nil => intro t acc; simp
  | cons c cs ih =>
      intro t acc
      have hc : pyIsSpace c = false := hw c (List.mem_cons_self c cs)
      have hcs : ∀ d ∈ cs, pyIsSpace d = false := fun d hd => hw d (List.mem_cons_of_mem c hd)
      simp only [List.cons_append, splitAux, hc, Bool.false_eq_true, if_false, List.append_eq]
      rw [ih hcs t (acc ++ [c])]
      simp

theorem splitAux_space (s : PyStr) (acc : PyStr) (hacc : acc ≠ []) :
    splitAux (' ' :: s) acc = acc :: splitAux s [] := by
  simp [splitAux, pyIsSpace, hacc]

theorem splitAux_space_nil (s : PyStr) :
    splitAux (' ' :: s) [] = splitAux s [] := by
  simp [splitAux, pyIsSpace]

theorem splitAux_trailing_space (s : PyStr) :
    ∀ acc, splitAux (s ++ [' ']) acc = splitAux s acc := by
  induction s with
  | nil =>
      intro acc
      by_cases h : acc = [] <;> simp [splitAux, pyIsSpace, h]
  | cons c cs ih =>
      intro acc
      by_cases hc : pyIsSpace c = true
      · by_cases h : acc = [] <;> simp [splitAux, hc, h, ih]
      · simp only [Bool.not_eq_true] at hc
        simp [splitAux, hc, ih]

theorem pySplitWs_spacedJoin (ws : List PyStr) (h : ∀ w ∈ ws, noWsWord w = true) :
    pySplitWs (spacedJoin ws) = ws := by
  induction ws with
  | nil => simp [pySplitWs, spacedJoin, splitAux]
  | cons w rest ih =>
      have hw := h w (List.mem_cons_self w rest)
      have hw1 : w ≠ [] := by
        simp only [noWsWord, Bool.and_eq_true, decide_eq_true_eq] at hw; exact hw.1
      have hw2 : ∀ c ∈ w, pyIsSpace c = false := by
        intro c hc
        simp only [noWsWord, Bool.and_eq_true, List.all_eq_true] at hw
        have := hw.2 c hc
        simpa using this
      have hrest : ∀ w' ∈ rest, noWsWord w' = true := fun w' h' => h w' (List.mem_cons_of_mem w h')
      simp only [pySplitWs, spacedJoin, List.cons_append]
      rw [splitAux_space_nil, splitAux_word w hw2 (spacedJoin rest) []]
      cases rest with
      | nil => simp [spacedJoin, splitAux, hw1]
      | cons w' rest' =>
          simp only [spacedJoin, List.cons_append, List.nil_append]
          rw [splitAux_space _ _ (by simpa using hw1)]
          have := ih hrest
          simp only [pySplitWs, spacedJoin, List.cons_append] at this
          rw [splitAux_space_nil] at this
          rw [this]

theorem pySplitWs_joinW (ws : List PyStr) (h : ∀ w ∈ ws, noWsWord w = true) :
    pySplitWs (joinW ws) = ws := by
  cases ws with
  | nil => simp [pySplitWs, joinW, splitAux]
  | cons w rest =>
      have hw := h w (List.mem_cons_self w rest)
      have hw1 : w ≠ [] := by
        simp only [noWsWord, Bool.and_eq_true, decide_eq_true_eq] at hw; exact hw.1
      have hw2 : ∀ c ∈ w, pyIsSpace c = false := by
        intro c hc
        simp only [noWsWord, Bool.and_eq_true, List.all_eq_true] at hw
        have := hw.2 c hc
        simpa using this
      simp only [pySplitWs, joinW]
      rw [splitAux_word w hw2 (spacedJoin rest) []]
      cases rest with
      | nil => simp [spacedJoin, splitAux, hw1]
      | cons w' rest' =>
          simp only [spacedJoin, List.cons_append, List.nil_append]
          rw [splitAux_space _ _ (by simpa using hw1)]
          have := pySplitWs_spacedJoin (w' :: rest')
            (fun x hx => h x (List.mem_cons_of_mem w hx))
          simp only [pySplitWs, spacedJoin, List.cons_append] at this
          rw [splitAux_space_nil] at this
          rw [this]

theorem spacedJoin_append (a b : List PyStr) :
    spacedJoin (a ++ b) = spacedJoin a ++ spacedJoin b := by
  induction a with
  | nil => simp [spacedJoin]
  | cons w rest ih => simp [spacedJoin, ih]

end StringLemmas

/-! ## larbatch_utilities: dCache path and URI helpers -/

def strPnfs : PyStr := (r"/pnfs/").toList

def strPnfsFnalUsr : PyStr := (r"/pnfs/fnal.gov/usr/").toList

/-- dcache_server from larbatch_utilities.py. -/
def dcache_server : PyStr := (r"fndcadoor.fnal.gov").toList

/-- dcache_path from larbatch_utilities.py.  The Python function has no
explicit return outside the if, so it returns None (here: none) when the
condition fails. -/
def dcache_path (path : PyStr) : Option PyStr :=
  if pyPrefixB strPnfs path ∧ ¬ pyPrefixB strPnfsFnalUsr path then
    some (strPnfsFnalUsr ++ path.drop 6)
  else none

/-- xrootd_server_port from larbatch_utilities.py. -/
def xrootd_server_port : PyStr := dcache_server ++ (r":1094").toList

/-- xrootd_uri from larbatch_utilities.py.  Concatenating a str with the
None returned by dcache_path raises TypeError in Python; we surface that as
an error value. -/
def xrootd_uri (path : PyStr) : Except PyErr PyStr :=
  if pyPrefixB strPnfs path then
    match dcache_path path with
    | some p => .ok ((r"root://").toList ++ xrootd_server_port ++ p)
    | none => .error .typeError
  else .ok path

/-- gridftp_uri from larbatch_utilities.py. -/
def gridftp_uri (path : PyStr) : Except PyErr PyStr :=
  if pyPrefixB strPnfs path then
    match dcache_path path with
    | some p => .ok ((r"gsiftp://").toList ++ dcache_server ++ p)
    | none => .error .typeError
  else .ok path

theorem pyPrefixB_append_left (a b s : PyStr) :
    pyPrefixB (a ++ b) s = true → pyPrefixB a s = true := by
  induction a generalizing s with
  | nil => intro _; rfl
  | cons c cs ih =>
      intro h
      cases s with
      | nil => simp [pyPrefixB] at h
      | cons d ds =>
          simp only [List.cons_append, pyPrefixB, Bool.and_eq_true] at h ⊢
          exact ⟨h.1, ih ds h.2⟩

/-- C9: dcache_path returns None (not the input path) both off /pnfs/ and on
/pnfs/fnal.gov/usr/, and consequently xrootd_uri and gridftp_uri raise
TypeError on /pnfs/fnal.gov/usr/ paths. -/
theorem c9_dcache_path_none (p : PyStr) :
    (pyPrefixB strPnfs p = false → dcache_path p = none) ∧
    (pyPrefixB strPnfsFnalUsr p = true →
      dcache_path p = none ∧
      xrootd_uri p = .error .typeError ∧
      gridftp_uri p = .error .typeError) := by
  constructor
  · intro h
    simp [dcache_path, h]
  · intro h
    have hp : pyPrefixB strPnfs p = true := by
      have hdecomp : strPnfsFnalUsr = strPnfs ++ (r"fnal.gov/usr/").toList := by decide
      exact pyPrefixB_append_left _ _ p (hdecomp ▸ h)
    have hd : dcache_path p = none := by
      simp [dcache_path, h]
    refine ⟨hd, ?_, ?_⟩
    · simp [xrootd_uri, hp, hd]
    · simp [gridftp_uri, hp, hd]

/-- Witness for C9 at a concrete path under /pnfs/fnal.gov/usr/. -/
theorem c9_dcache_path_none_witness :
    pyPrefixB strPnfsFnalUsr ((r"/pnfs/fnal.gov/usr/exp/f.root").toList) = true ∧
    dcache_path ((r"/pnfs/fnal.gov/usr/exp/f.root").toList) = none ∧
    xrootd_uri ((r"/pnfs/fnal.gov/usr/exp/f.root").toList) = .error .typeError := by
  have h : pyPrefixB strPnfsFnalUsr ((r"/pnfs/fnal.gov/usr/exp/f.root").toList) = true := by
    decide
  have := (c9_dcache_path_none ((r"/pnfs/fnal.gov/usr/exp/f.root").toList)).2 h
  exact ⟨h, this.1, this.2.1⟩

/-! ## larbatch_utilities: ifdh wrappers, environment scrubbing -/

/-- Result of running an ifdh subprocess: return code, stdout, stderr. -/
structure RunResult where
  rc : Int
  out : PyStr
  err : PyStr

/-- The IFDHError exception raised by the wrappers. -/
structure IFDHError where
  cmd : List PyStr
  rc : Int
  out : PyStr
  err : PyStr
  deriving DecidableEq

/-- The process environment (os.environ), as an association list. -/
abbrev Env := List (PyStr × PyStr)

/-- An abstract ifdh runner: given the environment the subprocess sees and
the command line, produce the subprocess result. -/
abbrev Runner := Env → List PyStr → RunResult

def envGet : Env → PyStr → Option PyStr
  | [], _ => none
  | p :: e, k => if p.1 = k then some p.2 else envGet e k

def envDel : Env → PyStr → Env
  | [], _ => []
  | p :: e, k => if p.1 = k then envDel e k else p :: envDel e k

def envSet (e : Env) (k v : PyStr) : Env :=
  (k, v) :: envDel e k

def kCert : PyStr := (r"X509_USER_CERT").toList

def kKey : PyStr := (r"X509_USER_KEY").toList

/-- The save_vars loop at the top of every wrapper: save and delete
X509_USER_CERT and X509_USER_KEY. -/
def scrubX509 (e : Env) : (List (PyStr × PyStr)) × Env :=
  [kCert, kKey].foldl
    (fun acc v =>
      match envGet acc.2 v with
      | some val => (acc.1 ++ [(v, val)], envDel acc.2 v)
      | none => acc)
    ([], e)

/-- The restore loop at the bottom of every wrapper. -/
def restoreX509 (save : List (PyStr × PyStr)) (e : Env) : Env :=
  save.foldl (fun e' p => envSet e' p.1 p.2) e

/-- Common body of the ifdh wrappers: scrub the X509 variables, run the
subprocess, raise IFDHError on nonzero return code, restore the variables
on both paths. -/
def ifdhCore (runner : Runner) (env : Env) (cmd : List PyStr) :
    (Except IFDHError RunResult) × Env :=
  let sv := scrubX509 env
  let res := runner sv.2 cmd
  if res.rc ≠ 0 then (.error ⟨cmd, res.rc, res.out, res.err⟩, restoreX509 sv.1 sv.2)
  else (.ok res, restoreX509 sv.1 sv.2)

/-- Python '%d' formatting. -/
def pyFmtInt (n : Int) : PyStr := (toString n).toList

/-- Python '%o' formatting of a nonnegative mode. -/
def pyFmtOct (n : Nat) : PyStr := Nat.toDigits 8 n

/-- Python str.splitlines restricted to newline separators. -/
def pySplitLines (s : PyStr) : List PyStr :=
  if s = [] then []
  else if s.getLast? = some '\n' then (pySplitOn s '\n').dropLast
  else pySplitOn s '\n'

def ifdh_cp (runner : Runner) (env : Env) (source destination : PyStr) :
    (Except IFDHError Unit) × Env :=
  let r := ifdhCore runner env [(r"ifdh").toList, (r"cp").toList, source, destination]
  (r.1.map (fun _ => ()), r.2)

def ifdh_ls (runner : Runner) (env : Env) (path : PyStr) (depth : Int) :
    (Except IFDHError (List PyStr)) × Env :=
  let r := ifdhCore runner env [(r"ifdh").toList, (r"ls").toList, path, pyFmtInt depth]
  (r.1.map (fun res => pySplitLines res.out), r.2)

def ifdh_ll (runner : Runner) (env : Env) (path : PyStr) (depth : Int) :
    (Except IFDHError (List PyStr)) × Env :=
  let r := ifdhCore runner env [(r"ifdh").toList, (r"ll").toList, path, pyFmtInt depth]
  (r.1.map (fun res => pySplitLines res.out), r.2)

def ifdh_mkdir (runner : Runner) (env : Env) (path : PyStr) :
    (Except IFDHError Unit) × Env :=
  let r := ifdhCore runner env [(r"ifdh").toList, (r"mkdir").toList, path]
  (r.1.map (fun _ => ()), r.2)

def ifdh_mkdir_p (runner : Runner) (env : Env) (path : PyStr) :
    (Except IFDHError Unit) × Env :=
  let r := ifdhCore runner env [(r"ifdh").toList, (r"mkdir_p").toList, path]
  (r.1.map (fun _ => ()), r.2)

def ifdh_rmdir (runner : Runner) (env : Env) (path : PyStr) :
    (Except IFDHError Unit) × Env :=
  let r := ifdhCore runner env [(r"ifdh").toList, (r"rmdir").toList, path]
  (r.1.map (fun _ => ()), r.2)

def ifdh_mv (runner : Runner) (env : Env) (src dest : PyStr) :
    (Except IFDHError Unit) × Env :=
  let r := ifdhCore runner env [(r"ifdh").toList, (r"mv").toList, src, dest]
  (r.1.map (fun _ => ()), r.2)

def ifdh_rm (runner : Runner) (env : Env) (path : PyStr) :
    (Except IFDHError Unit) × Env :=
  let r := ifdhCore runner env [(r"ifdh").toList, (r"rm").toList, path]
  (r.1.map (fun _ => ()), r.2)

/-- ifdh_chmod from larbatch_utilities.py.  Unlike the other wrappers, a
nonzero return code only prints a warning; no exception is raised. -/
def ifdh_chmod (runner : Runner) (env : Env) (path : PyStr) (mode : Nat) :
    (Except IFDHError Unit) × Env :=
  let sv := scrubX509 env
  let _res := runner sv.2 [(r"ifdh").toList, (r"chmod").toList, pyFmtOct mode, path]
  (.ok (), restoreX509 sv.1 sv.2)

/-- Whether an Except value is a normal return. -/
def isOkE {ε α : Type} : Except ε α → Bool
  | .ok _ => true
  | .error _ => false

section EnvLemmas

theorem envGet_envDel_same (e : Env) (k : PyStr) : envGet (envDel e k) k = none := by
  induction e with
  | nil => rfl
  | cons p e' ih =>
      by_cases h : p.1 = k
      · simpa [envDel, h] using ih
      · simpa [envDel, envGet, h] using ih

theorem envGet_envDel_other (e : Env) (k k' : PyStr) (h : k' ≠ k) :
    envGet (envDel e k) k' = envGet e k' := by
  induction e with
  | nil => rfl
  | cons p e' ih =>
      by_cases hp : p.1 = k
      · have hp' : ¬ (p.1 = k') := by rw [hp]; exact fun hh => h hh.symm
        have hkk' : ¬ (k = k') := fun hh => h hh.symm
        simp [envDel, envGet, hp, hp', hkk', ih]
      · by_cases hq : p.1 = k'
        · simp [envDel, envGet, hp, hq, h]
        · simp [envDel, envGet, hp, hq, ih]

theorem envGet_envSet_same (e : Env) (k v : PyStr) : envGet (envSet e k v) k = some v := by
  simp [envSet, envGet]

theorem envGet_envSet_other (e : Env) (k k' v : PyStr) (h : k' ≠ k) :
    envGet (envSet e k v) k' = envGet e k' := by
  have hne : ¬ (k = k') := fun hh => h hh.symm
  simp only [envSet, envGet, hne, if_false]
  exact envGet_envDel_other e k k' h

theorem kCert_ne_kKey : kCert ≠ kKey := by decide

/-- The save/delete/restore dance leaves both X509 variables exactly as they
were. -/
theorem x509_roundtrip (env : Env) :
    envGet (restoreX509 (scrubX509 env).1 (scrubX509 env).2) kCert = envGet env kCert ∧
    envGet (restoreX509 (scrubX509 env).1 (scrubX509 env).2) kKey = envGet env kKey := by
  have hkk : kKey ≠ kCert := fun h => kCert_ne_kKey h.symm
  rcases hc : envGet env kCert with _ | vc <;> rcases hk : envGet env kKey with _ | vk
  · have hscrub : scrubX509 env = ([], env) := by
      simp [scrubX509, List.foldl, hc, hk]
    simp [hscrub, restoreX509, List.foldl, hc, hk]
  · have hk2 : envGet env kKey = some vk := hk
    have hscrub : scrubX509 env = ([(kKey, vk)], envDel env kKey) := by
      simp [scrubX509, List.foldl, hc, hk2]
    simp only [hscrub, restoreX509, List.foldl]
    constructor
    · rw [envGet_envSet_other _ _ _ _ kCert_ne_kKey, envGet_envDel_other _ _ _ kCert_ne_kKey]
      exact hc
    · rw [envGet_envSet_same]
  · have hscrub : scrubX509 env = ([(kCert, vc)], envDel env kCert) := by
      have : envGet (envDel env kCert) kKey = envGet env kKey :=
        envGet_envDel_other _ _ _ hkk
      simp [scrubX509, List.foldl, hc, this, hk]
    simp only [hscrub, restoreX509, List.foldl]
    constructor
    · rw [envGet_envSet_same]
    · rw [envGet_envSet_other _ _ _ _ hkk, envGet_envDel_other _ _ _ hkk]
      exact hk
  · have hkd : envGet (envDel env kCert) kKey = some vk := by
      rw [envGet_envDel_other _ _ _ hkk, hk]
    have hscrub : scrubX509 env =
        ([(kCert, vc), (kKey, vk)], envDel (envDel env kCert) kKey) := by
      simp [scrubX509, List.foldl, hc, hkd]
    simp only [hscrub, restoreX509, List.foldl]
    constructor
    · rw [envGet_envSet_other _ _ _ _ kCert_ne_kKey, envGet_envSet_same]
    · rw [envGet_envSet_same]

theorem ifdhCore_env (runner : Runner) (env : Env) (cmd : List PyStr) :
    (ifdhCore runner env cmd).2 = restoreX509 (scrubX509 env).1 (scrubX509 env).2 := by
  by_cases h : (runner (scrubX509 env).2 cmd).rc ≠ 0 <;> simp [ifdhCore, h]

end EnvLemmas

/-- C4 counterexample: with a runner whose return code is 1, ifdh_chmod
returns normally instead of raising, refuting the claim that every wrapper
raises exactly on a nonzero return code. -/
theorem c4_chmod_counterexample :
    (ifdh_chmod (fun _ _ => ⟨1, [], []⟩) [] ((r"/pnfs/x").toList) 420).1 = .ok () ∧
    ((fun (_ : Env) (_ : List PyStr) => (⟨1, [], []⟩ : RunResult)) []
      [(r"ifdh").toList, (r"chmod").toList, pyFmtOct 420, (r"/pnfs/x").toList]).rc ≠ 0 :=
  ⟨rfl, by decide⟩

theorem ifdhCore_map_ok {X : Type} (runner : Runner) (env : Env) (cmd : List PyStr)
    (f : RunResult → X) :
    isOkE ((ifdhCore runner env cmd).1.map f) = true ↔
      (runner (scrubX509 env).2 cmd).rc = 0 := by
  by_cases h : (runner (scrubX509 env).2 cmd).rc = 0
  · simp [ifdhCore, h, isOkE, Except.map]
  · simp [ifdhCore, h, isOkE, Except.map]

/-- C4 amended: each of ifdh_cp, ifdh_ls, ifdh_ll, ifdh_mkdir, ifdh_mkdir_p,
ifdh_rmdir, ifdh_mv and ifdh_rm raises IFDHError exactly when the underlying
ifdh subprocess finishes with a nonzero return code, and returns normally on
a zero return code; ifdh_chmod however always returns normally, printing
only a warning on a nonzero return code. -/
theorem c4_wrappers_raise_iff_nonzero_rc (runner : Runner) (env : Env)
    (source destination path src dest : PyStr) (depth : Int) (mode : Nat) :
    (isOkE (ifdh_cp runner env source destination).1 = true ↔
      (runner (scrubX509 env).2
        [(r"ifdh").toList, (r"cp").toList, source, destination]).rc = 0) ∧
    (isOkE (ifdh_ls runner env path depth).1 = true ↔
      (runner (scrubX509 env).2
        [(r"ifdh").toList, (r"ls").toList, path, pyFmtInt depth]).rc = 0) ∧
    (isOkE (ifdh_ll runner env path depth).1 = true ↔
      (runner (scrubX509 env).2
        [(r"ifdh").toList, (r"ll").toList, path, pyFmtInt depth]).rc = 0) ∧
    (isOkE (ifdh_mkdir runner env path).1 = true ↔
      (runner (scrubX509 env).2 [(r"ifdh").toList, (r"mkdir").toList, path]).rc = 0) ∧
    (isOkE (ifdh_mkdir_p runner env path).1 = true ↔
      (runner (scrubX509 env).2 [(r"ifdh").toList, (r"mkdir_p").toList, path]).rc = 0) ∧
    (isOkE (ifdh_rmdir runner env path).1 = true ↔
      (runner (scrubX509 env).2 [(r"ifdh").toList, (r"rmdir").toList, path]).rc = 0) ∧
    (isOkE (ifdh_mv runner env src dest).1 = true ↔
      (runner (scrubX509 env).2 [(r"ifdh").toList, (r"mv").toList, src, dest]).rc = 0) ∧
    (isOkE (ifdh_rm runner env path).1 = true ↔
      (runner (scrubX509 env).2 [(r"ifdh").toList, (r"rm").toList, path]).rc = 0) ∧
    (ifdh_chmod runner env path mode).1 = .ok () := by
  refine ⟨?_, ?_, ?_, ?_, ?_, ?_, ?_, ?_, rfl⟩
  · simpa [ifdh_cp] using ifdhCore_map_ok runner env _ (fun _ => ())
  · simpa [ifdh_ls] using ifdhCore_map_ok runner env _ (fun res => pySplitLines res.out)
  · simpa [ifdh_ll] using ifdhCore_map_ok runner env _ (fun res => pySplitLines res.out)
  · simpa [ifdh_mkdir] using ifdhCore_map_ok runner env _ (fun _ => ())
  · simpa [ifdh_mkdir_p] using ifdhCore_map_ok runner env _ (fun _ => ())
  · simpa [ifdh_rmdir] using ifdhCore_map_ok runner env _ (fun _ => ())
  · simpa [ifdh_mv] using ifdhCore_map_ok runner env _ (fun _ => ())
  · simpa [ifdh_rm] using ifdhCore_map_ok runner env _ (fun _ => ())

/-- C7: every wrapper leaves the presence and values of X509_USER_CERT and
X509_USER_KEY unchanged, whether it returns normally or raises IFDHError. -/
theorem c7_x509_preserved (runner : Runner) (env : Env)
    (source destination path src dest : PyStr) (depth : Int) (mode : Nat) :
    (∀ k, k = kCert ∨ k = kKey →
      envGet (ifdh_cp runner env source destination).2 k = envGet env k ∧
      envGet (ifdh_ls runner env path depth).2 k = envGet env k ∧
      envGet (ifdh_ll runner env path depth).2 k = envGet env k ∧
      envGet (ifdh_mkdir runner env path).2 k = envGet env k ∧
      envGet (ifdh_mkdir_p runner env path).2 k = envGet env k ∧
      envGet (ifdh_rmdir runner env path).2 k = envGet env k ∧
      envGet (ifdh_mv runner env src dest).2 k = envGet env k ∧
      envGet (ifdh_rm runner env path).2 k = envGet env k ∧
      envGet (ifdh_chmod runner env path mode).2 k = envGet env k) := by
  intro k hk
  have hround := x509_roundtrip env
  have hgen : envGet (restoreX509 (scrubX509 env).1 (scrubX509 env).2) k = envGet env k := by
    rcases hk with h | h <;> subst h
    · exact hround.1
    · exact hround.2
  have hcp : (ifdh_cp runner env source destination).2 =
      restoreX509 (scrubX509 env).1 (scrubX509 env).2 := ifdhCore_env _ _ _
  have hls : (ifdh_ls runner env path depth).2 =
      restoreX509 (scrubX509 env).1 (scrubX509 env).2 := ifdhCore_env _ _ _
  have hll : (ifdh_ll runner env path depth).2 =
      restoreX509 (scrubX509 env).1 (scrubX509 env).2 := ifdhCore_env _ _ _
  have hmk : (ifdh_mkdir runner env path).2 =
      restoreX509 (scrubX509 env).1 (scrubX509 env).2 := ifdhCore_env _ _ _
  have hmkp : (ifdh_mkdir_p runner env path).2 =
      restoreX509 (scrubX509 env).1 (scrubX509 env).2 := ifdhCore_env _ _ _
  have hrmd : (ifdh_rmdir runner env path).2 =
      restoreX509 (scrubX509 env).1 (scrubX509 env).2 := ifdhCore_env _ _ _
  have hmv : (ifdh_mv runner env src dest).2 =
      restoreX509 (scrubX509 env).1 (scrubX509 env).2 := ifdhCore_env _ _ _
  have hrm : (ifdh_rm runner env path).2 =
      restoreX509 (scrubX509 env).1 (scrubX509 env).2 := ifdhCore_env _ _ _
  have hch : (ifdh_chmod runner env path mode).2 =
      restoreX509 (scrubX509 env).1 (scrubX509 env).2 := rfl
  rw [hcp, hls, hll, hmk, hmkp, hrmd, hmv, hrm, hch]
  exact ⟨hgen, hgen, hgen, hgen, hgen, hgen, hgen, hgen, hgen⟩

/-- Witness for C7 at a concrete runner, environment and arguments. -/
theorem c7_x509_preserved_witness :
    envGet (ifdh_cp (fun _ _ => ⟨1, [], []⟩) [(kCert, ['a'])] ['s'] ['d']).2 kCert =
      envGet [(kCert, ['a'])] kCert :=
  ((c7_x509_preserved (fun _ _ => ⟨1, [], []⟩) [(kCert, ['a'])]
      ['s'] ['d'] ['p'] ['x'] ['y'] 1 420) kCert (Or.inl rfl)).1

/-! ## project_utilities.parseInt -/

/-- Python set.add on a list representation of a set of ints. -/
def pySetAdd (l : List Int) (v : Int) : List Int :=
  if v ∈ l then l else l ++ [v]

/-- Python set |= set(vs). -/
def pySetAddRange (l : List Int) (vs : List Int) : List Int :=
  vs.foldl pySetAdd l

/-- Python range(a, b + 1) as a list of ints. -/
def intRange (a b : Int) : List Int :=
  (List.range (b + 1 - a).toNat).map (fun (i : Nat) => a + (i : Int))

/-- One step of insertion sort. -/
def insSorted (x : Int) : List Int → List Int
  | [] => [x]
  | y :: ys => if x ≤ y then x :: y :: ys else y :: insSorted x ys

/-- Python sorted() on a list of ints, as insertion sort. -/
def insSort : List Int → List Int
  | [] => []
  | x :: xs => insSorted x (insSort xs)

/-- int(token) for a token whose stripped form is a digit string. -/
def tokVal (t : PyStr) : Int := (natOfDigits (pyStrip t) : Int)

/-- The token loop of parseInt from project_utilities.py. -/
def parseIntGo : List PyStr → List Int → Except PyErr (List Int)
  | [], result => .ok result
  | token :: ts, result =>
      if pyIsDigitStr (pyStrip token) then
        parseIntGo ts (pySetAdd result (tokVal token))
      else
        match pySplitOn token '-' with
        | [a, b] =>
            if pyIsDigitStr (pyStrip a) && pyIsDigitStr (pyStrip b) then
              parseIntGo ts (pySetAddRange result (intRange (tokVal a) (tokVal b)))
            else .error .valueError
        | _ => .error .valueError

/-- parseInt from project_utilities.py. -/
def parseInt (s : PyStr) : Except PyErr (List Int) :=
  (parseIntGo (pySplitOn s ',') []).map insSort

/-- A comma token is parseable: a digit string modulo surrounding
whitespace, or two such joined by a single hyphen. -/
def pyTokOk (t : PyStr) : Bool :=
  pyIsDigitStr (pyStrip t) ||
    (match pySplitOn t '-' with
     | [a, b] => pyIsDigitStr (pyStrip a) && pyIsDigitStr (pyStrip b)
     | _ => false)

/-- Reference contribution of a single token. -/
def tokFinset (t : PyStr) : Finset Int :=
  if pyIsDigitStr (pyStrip t) then {tokVal t}
  else
    match pySplitOn t '-' with
    | [a, b] => Finset.Icc (tokVal a) (tokVal b)
    | _ => ∅

/-- Reference value of parseInt: the union of the token contributions. -/
def refFinset (s : PyStr) : Finset Int :=
  (pySplitOn s ',').foldl (fun acc t => acc ∪ tokFinset t) ∅

section ParseIntLemmas

theorem mem_insSorted (x a : Int) (l : List Int) :
    a ∈ insSorted x l ↔ a = x ∨ a ∈ l := by
  induction l with
  | nil => simp [insSorted]
  | cons y ys ih =>
      by_cases h : x ≤ y
      · simp [insSorted, h]
      · simp [insSorted, h, ih]
        tauto

theorem sorted_insSorted (x : Int) (l : List Int) (h : l.Sorted (· ≤ ·)) :
    (insSorted x l).Sorted (· ≤ ·) := by
  induction l with
  | nil => simp [insSorted]
  | cons y ys ih =>
      rw [List.sorted_cons] at h
      by_cases hxy : x ≤ y
      · rw [insSorted, if_pos hxy, List.sorted_cons]
        refine ⟨?_, ?_⟩
        · intro b hb
          rcases List.mem_cons.mp hb with hb | hb
          · exact hb ▸ hxy
          · exact le_trans hxy (h.1 b hb)
        · rw [List.sorted_cons]; exact h
      · rw [insSorted, if_neg hxy, List.sorted_cons]
        refine ⟨?_, ih h.2⟩
        intro b hb
        rcases (mem_insSorted x b ys).mp hb with hb | hb
        · exact hb ▸ (le_of_not_le hxy)
        · exact h.1 b hb

theorem nodup_insSorted (x : Int) (l : List Int) (hx : x ∉ l) (h : l.Nodup) :
    (insSorted x l).Nodup := by
  induction l with
  | nil => simp [insSorted]
  | cons y ys ih =>
      rw [List.nodup_cons] at h
      have hxy : x ≠ y := fun he => hx (he ▸ List.mem_cons_self y ys)
      have hxys : x ∉ ys := fun he => hx (List.mem_cons_of_mem y he)
      by_cases hle : x ≤ y
      · rw [insSorted, if_pos hle]
        exact List.nodup_cons.mpr ⟨hx, List.nodup_cons.mpr h⟩
      · rw [insSorted, if_neg hle]
        refine List.nodup_cons.mpr ⟨?_, ih hxys h.2⟩
        intro hy
        rcases (mem_insSorted x y ys).mp hy with he | he
        · exact hxy he.symm
        · exact h.1 he

theorem mem_insSort (l : List Int) (a : Int) : a ∈ insSort l ↔ a ∈ l := by
  induction l with
  | nil => simp [insSort]
  | cons x xs ih => simp [insSort, mem_insSorted, ih]

theorem sorted_insSort (l : List Int) : (insSort l).Sorted (· ≤ ·) := by
  induction l with
  | nil => simp [insSort]
  | cons x xs ih => exact sorted_insSorted x _ ih

theorem nodup_insSort (l : List Int) (h : l.Nodup) : (insSort l).Nodup := by
  induction l with
  | nil => simp [insSort]
  | cons x xs ih =>
      rw [List.nodup_cons] at h
      exact nodup_insSorted x _ (fun hx => h.1 ((mem_insSort xs x).mp hx)) (ih h.2)

theorem nodup_pySetAdd (l : List Int) (v : Int) (h : l.Nodup) : (pySetAdd l v).Nodup := by
  by_cases hv : v ∈ l
  · simp [pySetAdd, hv, h]
  · rw [pySetAdd, if_neg hv]
    refine List.Nodup.append h (List.nodup_singleton v) ?_
    intro a ha hb
    rw [List.mem_singleton] at hb
    exact hv (hb ▸ ha)

theorem toFinset_pySetAdd (l : List Int) (v : Int) :
    (pySetAdd l v).toFinset = l.toFinset ∪ {v} := by
  by_cases hv : v ∈ l
  · ext a; simp [pySetAdd, hv]
    intro ha; exact ha ▸ hv
  · ext a; simp [pySetAdd, hv]

theorem nodup_pySetAddRange (vs : List Int) : ∀ l, l.Nodup → (pySetAddRange l vs).Nodup := by
  induction vs with
  | nil => intro l h; exact h
  | cons v vs' ih =>
      intro l h
      exact ih _ (nodup_pySetAdd l v h)

theorem toFinset_pySetAddRange (vs : List Int) :
    ∀ l, (pySetAddRange l vs).toFinset = l.toFinset ∪ vs.toFinset := by
  induction vs with
  | nil => intro l; simp [pySetAddRange]
  | cons v vs' ih =>
      intro l
      have : pySetAddRange l (v :: vs') = pySetAddRange (pySetAdd l v) vs' := rfl
      rw [this, ih, toFinset_pySetAdd]
      ext a; simp; tauto

theorem toFinset_intRange (a b : Int) : (intRange a b).toFinset = Finset.Icc a b := by
  ext x
  rw [List.mem_toFinset, Finset.mem_Icc, intRange]
  constructor
  · intro hx
    obtain ⟨i, hi, hx⟩ := List.mem_map.mp hx
    have hi2 := List.mem_range.mp hi
    subst hx
    omega
  · intro hx
    exact List.mem_map.mpr ⟨(x - a).toNat, List.mem_range.mpr (by omega), by omega⟩

end ParseIntLemmas

section ParseIntGoLemmas

theorem nodup_intRange (a b : Int) : (intRange a b).Nodup := by
  apply List.Nodup.map
  · intro i j h
    have h2 : a + (i : Int) = a + (j : Int) := h
    omega
  · exact List.nodup_range _

theorem mem_intRange_nonneg (a b : Int) (ha : 0 ≤ a) (x : Int) (hx : x ∈ intRange a b) :
    0 ≤ x := by
  obtain ⟨i, _, hx⟩ := List.mem_map.mp hx
  subst hx
  omega

theorem tokVal_nonneg (t : PyStr) : 0 ≤ tokVal t := Int.natCast_nonneg _

theorem refFold_init (ts : List PyStr) :
    ∀ A B : Finset Int,
      ts.foldl (fun acc t => acc ∪ tokFinset t) (A ∪ B) =
        A ∪ ts.foldl (fun acc t => acc ∪ tokFinset t) B := by
  induction ts with
  | nil => intro A B; rfl
  | cons t ts' ih =>
      intro A B
      show ts'.foldl _ ((A ∪ B) ∪ tokFinset t) = A ∪ ts'.foldl _ (B ∪ tokFinset t)
      rw [Finset.union_assoc, ih]

theorem refFold_cons (t : PyStr) (ts : List PyStr) (B : Finset Int) :
    (t :: ts).foldl (fun acc t' => acc ∪ tokFinset t') B =
      (B ∪ tokFinset t) ∪ ts.foldl (fun acc t' => acc ∪ tokFinset t') ∅ := by
  show ts.foldl _ (B ∪ tokFinset t) = _
  have := refFold_init ts (B ∪ tokFinset t) ∅
  rw [Finset.union_empty] at this
  rw [this]

theorem parseIntGo_cons_digit (token : PyStr) (ts : List PyStr) (result : List Int)
    (hd : pyIsDigitStr (pyStrip token) = true) :
    parseIntGo (token :: ts) result = parseIntGo ts (pySetAdd result (tokVal token)) := by
  rw [parseIntGo, if_pos hd]

theorem parseIntGo_cons_range (token : PyStr) (ts : List PyStr) (result : List Int)
    (hd : pyIsDigitStr (pyStrip token) = false) (a b : PyStr)
    (hsplit : pySplitOn token '-' = [a, b]) :
    parseIntGo (token :: ts) result =
      (if pyIsDigitStr (pyStrip a) && pyIsDigitStr (pyStrip b) then
        parseIntGo ts (pySetAddRange result (intRange (tokVal a) (tokVal b)))
      else .error .valueError) := by
  rw [parseIntGo, if_neg (by simp [hd]), hsplit]

theorem parseIntGo_cons_nil (token : PyStr) (ts : List PyStr) (result : List Int)
    (hd : pyIsDigitStr (pyStrip token) = false)
    (hsplit : pySplitOn token '-' = []) :
    parseIntGo (token :: ts) result = .error .valueError := by
  rw [parseIntGo, if_neg (by simp [hd]), hsplit]

theorem parseIntGo_cons_one (token : PyStr) (ts : List PyStr) (result : List Int)
    (hd : pyIsDigitStr (pyStrip token) = false) (a : PyStr)
    (hsplit : pySplitOn token '-' = [a]) :
    parseIntGo (token :: ts) result = .error .valueError := by
  rw [parseIntGo, if_neg (by simp [hd]), hsplit]

theorem parseIntGo_cons_many (token : PyStr) (ts : List PyStr) (result : List Int)
    (hd : pyIsDigitStr (pyStrip token) = false) (a b c : PyStr) (rest : List PyStr)
    (hsplit : pySplitOn token '-' = a :: b :: c :: rest) :
    parseIntGo (token :: ts) result = .error .valueError := by
  rw [parseIntGo, if_neg (by simp [hd]), hsplit]

theorem parseIntGo_ok_iff (ts : List PyStr) :
    ∀ result, isOkE (parseIntGo ts result) = true ↔ ∀ t ∈ ts, pyTokOk t = true := by
  induction ts with
  | nil => intro result; simp [parseIntGo, isOkE]
  | cons token ts' ih =>
      intro result
      by_cases hd : pyIsDigitStr (pyStrip token) = true
      · rw [parseIntGo_cons_digit _ _ _ hd]
        have htok : pyTokOk token = true := by simp [pyTokOk, hd]
        simp only [List.mem_cons, forall_eq_or_imp, htok, true_and]
        exact ih _
      · rw [Bool.not_eq_true] at hd
        rcases hsplit : pySplitOn token '-' with _ | ⟨a, _ | ⟨b, _ | ⟨c, rest⟩⟩⟩
        · rw [parseIntGo_cons_nil _ _ _ hd hsplit]
          have htok : pyTokOk token = false := by simp [pyTokOk, hd, hsplit]
          simp [isOkE, htok]
        · rw [parseIntGo_cons_one _ _ _ hd _ hsplit]
          have htok : pyTokOk token = false := by simp [pyTokOk, hd, hsplit]
          simp [isOkE, htok]
        · rw [parseIntGo_cons_range _ _ _ hd _ _ hsplit]
          by_cases hab : (pyIsDigitStr (pyStrip a) && pyIsDigitStr (pyStrip b)) = true
          · rw [if_pos hab]
            have htok : pyTokOk token = true := by simp [pyTokOk, hd, hsplit, hab]
            simp only [List.mem_cons, forall_eq_or_imp, htok, true_and]
            exact ih _
          · rw [if_neg hab]
            have htok : pyTokOk token = false := by
              rw [Bool.not_eq_true] at hab
              simp [pyTokOk, hd, hsplit, hab]
            simp [isOkE, htok]
        · rw [parseIntGo_cons_many _ _ _ hd _ _ _ _ hsplit]
          have htok : pyTokOk token = false := by simp [pyTokOk, hd, hsplit]
          simp [isOkE, htok]

theorem parseIntGo_toFinset (ts : List PyStr) :
    ∀ result fs, parseIntGo ts result = .ok fs →
      fs.toFinset = result.toFinset ∪ ts.foldl (fun acc t => acc ∪ tokFinset t) ∅ := by
  induction ts with
  | nil =>
      intro result fs h
      rw [parseIntGo] at h
      cases h
      simp
  | cons token ts' ih =>
      intro result fs h
      rw [refFold_cons]
      by_cases hd : pyIsDigitStr (pyStrip token) = true
      · rw [parseIntGo_cons_digit _ _ _ hd] at h
        rw [ih _ _ h, toFinset_pySetAdd]
        have htok : tokFinset token = {tokVal token} := by simp [tokFinset, hd]
        rw [htok]
        ext x; simp; try tauto
      · rw [Bool.not_eq_true] at hd
        rcases hsplit : pySplitOn token '-' with _ | ⟨a, _ | ⟨b, _ | ⟨c, rest⟩⟩⟩
        · rw [parseIntGo_cons_nil _ _ _ hd hsplit] at h
          exact absurd h (by simp)
        · rw [parseIntGo_cons_one _ _ _ hd _ hsplit] at h
          exact absurd h (by simp)
        · rw [parseIntGo_cons_range _ _ _ hd _ _ hsplit] at h
          by_cases hab : (pyIsDigitStr (pyStrip a) && pyIsDigitStr (pyStrip b)) = true
          · rw [if_pos hab] at h
            rw [ih _ _ h, toFinset_pySetAddRange, toFinset_intRange]
            have htok : tokFinset token = Finset.Icc (tokVal a) (tokVal b) := by
              simp [tokFinset, hd, hsplit]
            rw [htok]
            ext x; simp; try tauto
          · rw [if_neg hab] at h
            exact absurd h (by simp)
        · rw [parseIntGo_cons_many _ _ _ hd _ _ _ _ hsplit] at h
          exact absurd h (by simp)

theorem parseIntGo_nodup (ts : List PyStr) :
    ∀ result fs, result.Nodup → parseIntGo ts result = .ok fs → fs.Nodup := by
  induction ts with
  | nil =>
      intro result fs hn h
      rw [parseIntGo] at h
      cases h
      exact hn
  | cons token ts' ih =>
      intro result fs hn h
      by_cases hd : pyIsDigitStr (pyStrip token) = true
      · rw [parseIntGo_cons_digit _ _ _ hd] at h
        exact ih _ _ (nodup_pySetAdd _ _ hn) h
      · rw [Bool.not_eq_true] at hd
        rcases hsplit : pySplitOn token '-' with _ | ⟨a, _ | ⟨b, _ | ⟨c, rest⟩⟩⟩
        · rw [parseIntGo_cons_nil _ _ _ hd hsplit] at h
          exact absurd h (by simp)
        · rw [parseIntGo_cons_one _ _ _ hd _ hsplit] at h
          exact absurd h (by simp)
        · rw [parseIntGo_cons_range _ _ _ hd _ _ hsplit] at h
          by_cases hab : (pyIsDigitStr (pyStrip a) && pyIsDigitStr (pyStrip b)) = true
          · rw [if_pos hab] at h
            exact ih _ _ (nodup_pySetAddRange _ _ hn) h
          · rw [if_neg hab] at h
            exact absurd h (by simp)
        · rw [parseIntGo_cons_many _ _ _ hd _ _ _ _ hsplit] at h
          exact absurd h (by simp)

theorem mem_pySetAdd (l : List Int) (v x : Int) :
    x ∈ pySetAdd l v ↔ x ∈ l ∨ x = v := by
  by_cases hv : v ∈ l
  · simp [pySetAdd, hv]
    intro hx; exact hx ▸ hv
  · simp [pySetAdd, hv]

theorem mem_pySetAddRange (vs : List Int) :
    ∀ l x, x ∈ pySetAddRange l vs ↔ x ∈ l ∨ x ∈ vs := by
  induction vs with
  | nil => intro l x; simp [pySetAddRange]
  | cons v vs' ih =>
      intro l x
      have hstep : pySetAddRange l (v :: vs') = pySetAddRange (pySetAdd l v) vs' := rfl
      rw [hstep, ih, mem_pySetAdd]
      simp
      tauto

theorem parseIntGo_nonneg (ts : List PyStr) :
    ∀ result fs, (∀ x ∈ result, 0 ≤ x) → parseIntGo ts result = .ok fs →
      ∀ x ∈ fs, 0 ≤ x := by
  induction ts with
  | nil =>
      intro result fs hn h
      rw [parseIntGo] at h
      cases h
      exact hn
  | cons token ts' ih =>
      intro result fs hn h
      by_cases hd : pyIsDigitStr (pyStrip token) = true
      · rw [parseIntGo_cons_digit _ _ _ hd] at h
        refine ih _ _ ?_ h
        intro x hx
        rcases (mem_pySetAdd _ _ _).mp hx with hx | hx
        · exact hn x hx
        · exact hx ▸ tokVal_nonneg token
      · rw [Bool.not_eq_true] at hd
        rcases hsplit : pySplitOn token '-' with _ | ⟨a, _ | ⟨b, _ | ⟨c, rest⟩⟩⟩
        · rw [parseIntGo_cons_nil _ _ _ hd hsplit] at h
          exact absurd h (by simp)
        · rw [parseIntGo_cons_one _ _ _ hd _ hsplit] at h
          exact absurd h (by simp)
        · rw [parseIntGo_cons_range _ _ _ hd _ _ hsplit] at h
          by_cases hab : (pyIsDigitStr (pyStrip a) && pyIsDigitStr (pyStrip b)) = true
          · rw [if_pos hab] at h
            refine ih _ _ ?_ h
            intro x hx
            rcases (mem_pySetAddRange _ _ _).mp hx with hx | hx
            · exact hn x hx
            · exact mem_intRange_nonneg _ _ (tokVal_nonneg a) x hx
          · rw [if_neg hab] at h
            exact absurd h (by simp)
        · rw [parseIntGo_cons_many _ _ _ hd _ _ _ _ hsplit] at h
          exact absurd h (by simp)

end ParseIntGoLemmas

/-- C10: parseInt either returns a strictly increasing list of non-negative
integers or raises ValueError; it raises exactly when some comma token is
neither a digit string modulo surrounding whitespace nor two such joined by
a single hyphen; and an inverted range token contributes no elements without
raising. -/
theorem c10_parseInt_correct (s : PyStr) :
    (isOkE (parseInt s) = false ↔ ∃ t ∈ pySplitOn s ',', pyTokOk t = false) ∧
    (∀ l, parseInt s = .ok l →
      l.Sorted (· < ·) ∧ (∀ x ∈ l, 0 ≤ x) ∧ l.toFinset = refFinset s) ∧
    (∀ t a b, pySplitOn t '-' = [a, b] → tokVal b < tokVal a →
      Finset.Icc (tokVal a) (tokVal b) = ∅ ∧ pyTokOk t =
        (pyIsDigitStr (pyStrip t) ||
          (pyIsDigitStr (pyStrip a) && pyIsDigitStr (pyStrip b)))) := by
  refine ⟨?_, ?_, ?_⟩
  · have hok : isOkE (parseInt s) = isOkE (parseIntGo (pySplitOn s ',') []) := by
      rcases h : parseIntGo (pySplitOn s ',') [] with e | fs <;>
        simp [parseInt, h, isOkE, Except.map]
    rw [hok]
    have hiff := parseIntGo_ok_iff (pySplitOn s ',') []
    constructor
    · intro hfalse
      by_contra hno
      push_neg at hno
      have hall : ∀ t ∈ pySplitOn s ',', pyTokOk t = true := by
        intro t ht
        cases hpy : pyTokOk t
        · exact absurd hpy (hno t ht)
        · rfl
      rw [← hiff] at hall
      rw [hall] at hfalse
      cases hfalse
    · rintro ⟨t, ht, htok⟩
      cases hb : isOkE (parseIntGo (pySplitOn s ',') [])
      · rfl
      · have := hiff.mp hb t ht
        rw [htok] at this
        cases this
  · intro l hl
    rcases h : parseIntGo (pySplitOn s ',') [] with e | fs
    · rw [parseInt, h] at hl; exact absurd hl (by simp [Except.map])
    · rw [parseInt, h] at hl
      have hl2 : l = insSort fs := by
        have := hl
        simp only [Except.map] at this
        exact (Except.ok.inj this).symm
      subst hl2
      have hnodup : fs.Nodup := parseIntGo_nodup _ _ _ (List.nodup_nil) h
      refine ⟨?_, ?_, ?_⟩
      · exact List.Sorted.lt_of_le (sorted_insSort fs) (nodup_insSort fs hnodup)
      · intro x hx
        exact parseIntGo_nonneg _ _ _ (by simp) h x ((mem_insSort fs x).mp hx)
      · have htf := parseIntGo_toFinset (pySplitOn s ',') [] fs h
        simp only [List.toFinset_nil, Finset.empty_union] at htf
        rw [refFinset, ← htf]
        ext x
        simp [mem_insSort]
  · intro t a b hsplit hba
    refine ⟨Finset.Icc_eq_empty (by omega), ?_⟩
    simp only [pyTokOk, hsplit]

/-- Witness for C10 at the concrete input '5,2-4,9-3' (which contains an
inverted range). -/
theorem c10_parseInt_correct_witness :
    parseInt ((r"5,2-4,9-3").toList) = .ok [2, 3, 4, 5] ∧
    List.Sorted (· < ·) [(2 : Int), 3, 4, 5] := by
  have hpe : parseInt ((r"5,2-4,9-3").toList) = .ok [2, 3, 4, 5] := by rfl
  exact ⟨hpe, ((c10_parseInt_correct ((r"5,2-4,9-3").toList)).2.1 _ hpe).1⟩

/-! ## artroot_filter.py -/

/-- Abstract view of a TFile as seen by artroot_filter: open/zombie state,
key names in order, and the InheritsFrom test for the object fetched by
Get(objname). -/
structure RFile where
  isOpenF : Bool
  isZombie : Bool
  keyNames : List PyStr
  inhFrom : PyStr → PyStr → Bool

def strEvents : PyStr := (r"Events").toList

def strRootFileDB : PyStr := (r"RootFileDB").toList

def strTTree : PyStr := (r"TTree").toList

def strTKey : PyStr := (r"TKey").toList

/-- The key loop of artroot_filter.main: compute has_events and has_db for
an opened file and require both. -/
def artrootKeysOk (root : RFile) : Bool :=
  let flags := root.keyNames.foldl
    (fun (fl : Bool × Bool) objname =>
      (fl.1 || (decide (objname = strEvents) && root.inhFrom objname strTTree),
       fl.2 || (decide (objname = strRootFileDB) && root.inhFrom objname strTKey)))
    (false, false)
  flags.1 && flags.2

/-- Whether artroot_filter.main prints the filename f: the file opens as an
open non-zombie ROOT file and its keys qualify; `openf` models
ROOT.TFile.Open (None for a failed open). -/
def artrootFileOut (openf : PyStr → Option RFile) (f : PyStr) : Bool :=
  match openf f with
  | none => false
  | some root =>
      if root.isOpenF && !root.isZombie then artrootKeysOk root else false

/-- The body of the stdin loop of artroot_filter.main for one line. -/
def artrootLineStep (openf : PyStr → Option RFile) (acc : List PyStr) (line : PyStr) :
    List PyStr :=
  match pySplitWs line with
  | [] => acc
  | f :: _ => if artrootFileOut openf f then acc ++ [f] else acc

/-- artroot_filter.main: the printed lines and the return value. -/
def artroot_filter_main (openf : PyStr → Option RFile) (lines : List PyStr) :
    List PyStr × Int :=
  (lines.foldl (artrootLineStep openf) [], 0)

/-- Specification-side test: f opens as a non-zombie open ROOT file holding
an Events key inheriting TTree and a RootFileDB key inheriting TKey. -/
def isArtroot (openf : PyStr → Option RFile) (f : PyStr) : Bool :=
  match openf f with
  | none => false
  | some root =>
      root.isOpenF && !root.isZombie &&
        (decide (strEvents ∈ root.keyNames) && root.inhFrom strEvents strTTree) &&
        (decide (strRootFileDB ∈ root.keyNames) && root.inhFrom strRootFileDB strTKey)

/-- Specification-side output: first words of non-blank lines naming
artroot files, in input order. -/
def artrootSpecOut (openf : PyStr → Option RFile) (lines : List PyStr) : List PyStr :=
  lines.filterMap (fun line =>
    match pySplitWs line with
    | [] => none
    | f :: _ => if isArtroot openf f then some f else none)

section ArtrootLemmas

theorem foldl_orpair (f g : PyStr → Bool) (keys : List PyStr) :
    ∀ init : Bool × Bool,
      keys.foldl (fun fl k => (fl.1 || f k, fl.2 || g k)) init =
        (init.1 || keys.any f, init.2 || keys.any g) := by
  induction keys with
  | nil => intro init; simp
  | cons k ks ih =>
      intro init
      rw [List.foldl_cons, ih]
      simp [Bool.or_assoc]

theorem any_eq_and (a : PyStr) (p : PyStr → Bool) (keys : List PyStr) :
    keys.any (fun k => decide (k = a) && p k) = (decide (a ∈ keys) && p a) := by
  induction keys with
  | nil => simp
  | cons k ks ih =>
      rw [List.any_cons, ih]
      by_cases hk : k = a
      · subst hk
        simp only [decide_eq_true_eq, List.mem_cons, true_or]
        cases hpa : p k <;> simp [hpa]
      · have hka : ¬ (a = k) := fun hh => hk hh.symm
        simp [hk, hka]

theorem artrootKeysOk_spec (root : RFile) :
    artrootKeysOk root =
      ((decide (strEvents ∈ root.keyNames) && root.inhFrom strEvents strTTree) &&
       (decide (strRootFileDB ∈ root.keyNames) && root.inhFrom strRootFileDB strTKey)) := by
  rw [artrootKeysOk]
  rw [foldl_orpair
      (fun objname => decide (objname = strEvents) && root.inhFrom objname strTTree)
      (fun objname => decide (objname = strRootFileDB) && root.inhFrom objname strTKey)
      root.keyNames (false, false)]
  rw [any_eq_and strEvents (fun k => root.inhFrom k strTTree) root.keyNames,
    any_eq_and strRootFileDB (fun k => root.inhFrom k strTKey) root.keyNames]
  simp

theorem artrootFileOut_none (openf : PyStr → Option RFile) (f : PyStr)
    (hopen : openf f = none) : artrootFileOut openf f = false := by
  rw [artrootFileOut, hopen]

theorem artrootFileOut_some (openf : PyStr → Option RFile) (f : PyStr) (root : RFile)
    (hopen : openf f = some root) :
    artrootFileOut openf f =
      (if root.isOpenF && !root.isZombie then artrootKeysOk root else false) := by
  rw [artrootFileOut, hopen]

theorem isArtroot_none (openf : PyStr → Option RFile) (f : PyStr)
    (hopen : openf f = none) : isArtroot openf f = false := by
  rw [isArtroot, hopen]

theorem isArtroot_some (openf : PyStr → Option RFile) (f : PyStr) (root : RFile)
    (hopen : openf f = some root) :
    isArtroot openf f =
      (root.isOpenF && !root.isZombie &&
        (decide (strEvents ∈ root.keyNames) && root.inhFrom strEvents strTTree) &&
        (decide (strRootFileDB ∈ root.keyNames) && root.inhFrom strRootFileDB strTKey)) := by
  rw [isArtroot, hopen]

theorem artrootFileOut_eq_isArtroot (openf : PyStr → Option RFile) (f : PyStr) :
    artrootFileOut openf f = isArtroot openf f := by
  rcases hopen : openf f with _ | root
  · rw [artrootFileOut_none openf f hopen, isArtroot_none openf f hopen]
  · rw [artrootFileOut_some openf f root hopen, isArtroot_some openf f root hopen]
    by_cases hz : (root.isOpenF && !root.isZombie) = true
    · rw [if_pos hz, artrootKeysOk_spec, hz]
      simp [Bool.and_assoc]
    · rw [if_neg hz]
      rw [Bool.not_eq_true] at hz
      rw [hz]
      simp

theorem artrootStep_nilcase (openf : PyStr → Option RFile) (acc : List PyStr) (line : PyStr)
    (hsplit : pySplitWs line = []) : artrootLineStep openf acc line = acc := by
  rw [artrootLineStep, hsplit]

theorem artrootStep_conscase (openf : PyStr → Option RFile) (acc : List PyStr) (line : PyStr)
    (f : PyStr) (rest : List PyStr) (hsplit : pySplitWs line = f :: rest) :
    artrootLineStep openf acc line =
      (if artrootFileOut openf f then acc ++ [f] else acc) := by
  rw [artrootLineStep, hsplit]

theorem artrootStep_spec (openf : PyStr → Option RFile) (line : PyStr) (acc : List PyStr) :
    artrootLineStep openf acc line =
      acc ++ (match pySplitWs line with
              | [] => []
              | f :: _ => if isArtroot openf f then [f] else []) := by
  rcases hsplit : pySplitWs line with _ | ⟨f, rest⟩
  · rw [artrootStep_nilcase openf acc line hsplit]
    simp
  · rw [artrootStep_conscase openf acc line f rest hsplit, artrootFileOut_eq_isArtroot]
    have hmatch : (match f :: rest with
        | [] => ([] : List PyStr)
        | g :: _ => if isArtroot openf g then [g] else []) =
          (if isArtroot openf f then [f] else []) := rfl
    rw [hmatch]
    by_cases hart : isArtroot openf f = true
    · rw [if_pos hart, if_pos hart]
    · rw [if_neg hart, if_neg hart]
      simp

end ArtrootLemmas

/-- C8: artroot_filter.main prints exactly the first words of non-blank
input lines that name open, non-zombie ROOT files containing an Events
TTree and a RootFileDB TKey, in input order, and returns 0. -/
theorem c8_artroot_filter (openf : PyStr → Option RFile) (lines : List PyStr) :
    artroot_filter_main openf lines = (artrootSpecOut openf lines, 0) := by
  rw [artroot_filter_main, artrootSpecOut]
  refine Prod.ext ?_ rfl
  show lines.foldl (artrootLineStep openf) [] = _
  have main : ∀ (ls : List PyStr) (acc : List PyStr), ls.foldl (artrootLineStep openf) acc =
      acc ++ ls.filterMap (fun line =>
        match pySplitWs line with
        | [] => none
        | f :: _ => if isArtroot openf f then some f else none) := by
    intro ls
    induction ls with
    | nil => intro acc; simp
    | cons line rest ih =>
        intro acc
        rw [List.foldl_cons, ih, artrootStep_spec, List.filterMap_cons]
        rcases hsplit : pySplitWs line with _ | ⟨f, r⟩
        · simp
        · by_cases hart : isArtroot openf f = true <;> simp [hart]
  rw [main lines []]
  simp

/-! ## project_utilities.expandDefnames and the defname expansion loop -/

def wDefname : PyStr := (r"defname:").toList

def patOrSp : PyStr := (r" or ").toList

def patMinusSp : PyStr := (r" minus ").toList

/-- The definition environment: samweb().descDefinitionDict(name)['dimensions'],
None when the definition does not exist (descDefinitionDict raises). -/
abbrev DefEnv := PyStr → Option PyStr

/-- One word of the expandDefnames loop; the state is (result, isdefname). -/
def expandStep (env : DefEnv) (st : PyStr × Bool) (word : PyStr) :
    Except PyErr (PyStr × Bool) :=
  if st.2 then
    match env word with
    | none => .error .samError
    | some descdim =>
        if pyFindOpt descdim patOrSp = none ∧ pyFindOpt descdim patMinusSp = none then
          .ok (st.1 ++ (' ' :: wDefname) ++ (' ' :: word), false)
        else
          .ok (st.1 ++ (r" ( ").toList ++ descdim ++ (r" )").toList, false)
  else
    if word = wDefname then .ok (st.1, true)
    else .ok (st.1 ++ (' ' :: word), false)

/-- The word loop of expandDefnames. -/
def expandGo (env : DefEnv) : List PyStr → (PyStr × Bool) → Except PyErr (PyStr × Bool)
  | [], st => .ok st
  | w :: ws, st =>
      match expandStep env st w with
      | .error e => .error e
      | .ok st' => expandGo env ws st'

/-- expandDefnames from project_utilities.py. -/
def expandDefnames (env : DefEnv) (dim : PyStr) : Except PyErr PyStr :=
  (expandGo env (pySplitWs dim) ([], false)).map Prod.fst

/-- The 'while not done' loop at the start of listFiles, with fuel: returns
some fixed point if the loop finishes within the fuel, none otherwise. -/
def expandFix (env : DefEnv) : Nat → PyStr → Except PyErr (Option PyStr)
  | 0, _ => .ok none
  | fuel + 1, dim =>
      match expandDefnames env dim with
      | .error e => .error e
      | .ok newdim => if newdim = dim then .ok (some dim) else expandFix env fuel newdim

/-- The cyclic counterexample environment: D is defined as 'defname: D or X'. -/
def envD : DefEnv := fun w =>
  if w = ['D'] then some ((r"defname: D or X").toList) else none

/-- The expansion segment inserted for each 'defname: D' pair under envD. -/
def segD : List PyStr := [['('], wDefname, ['D'], ['o', 'r'], ['X'], [')']]

/-- Word-level effect of one expandDefnames pass under envD. -/
def ewD : List PyStr → List PyStr
  | [] => []
  | [w] => if w = wDefname then [] else [w]
  | w :: d :: ws' =>
      if w = wDefname then segD ++ ewD ws'
      else w :: ewD (d :: ws')

/-- The invariant for envD: every 'defname:' is immediately followed by 'D'. -/
def invD : List PyStr → Bool
  | [] => true
  | [w] => decide (w ≠ wDefname)
  | w :: d :: ws' =>
      if w = wDefname then decide (d = ['D']) && invD ws'
      else invD (d :: ws')

section ExpandLemmas

theorem pySplitWs_words_clean (s : PyStr) :
    ∀ acc, (∀ c ∈ acc, pyIsSpace c = false) →
      ∀ w ∈ splitAux s acc, noWsWord w = true := by
  induction s with
  | nil =>
      intro acc hacc w hw
      rw [splitAux] at hw
      by_cases h : acc = []
      · rw [if_pos h] at hw; cases hw
      · rw [if_neg h] at hw
        rcases List.mem_singleton.mp hw with rfl
        simp only [noWsWord, Bool.and_eq_true, decide_eq_true_eq, List.all_eq_true]
        exact ⟨h, fun c hc => by simp [hacc c hc]⟩
  | cons c cs ih =>
      intro acc hacc w hw
      rw [splitAux] at hw
      by_cases hsp : pyIsSpace c = true
      · rw [if_pos hsp] at hw
        by_cases h : acc = []
        · rw [if_pos h] at hw
          exact ih [] (by simp) w hw
        · rw [if_neg h] at hw
          rcases List.mem_cons.mp hw with rfl | hw
          · simp only [noWsWord, Bool.and_eq_true, decide_eq_true_eq, List.all_eq_true]
            exact ⟨h, fun d hd => by simp [hacc d hd]⟩
          · exact ih [] (by simp) w hw
      · rw [Bool.not_eq_true] at hsp
        rw [if_neg (by simp [hsp])] at hw
        refine ih (acc ++ [c]) ?_ w hw
        intro d hd
        rcases List.mem_append.mp hd with hd | hd
        · exact hacc d hd
        · rcases List.mem_singleton.mp hd with rfl
          exact hsp

theorem pySplitWs_clean (s : PyStr) : ∀ w ∈ pySplitWs s, noWsWord w = true :=
  pySplitWs_words_clean s [] (by simp)

theorem ewD_words (ws : List PyStr) :
    ∀ w ∈ ewD ws, w ∈ segD ∨ w ∈ ws := by
  induction ws using ewD.induct with
  | case1 => intro w hw; cases hw
  | case2 =>
      intro w hw
      rw [ewD, if_pos rfl] at hw
      cases hw
  | case3 w' hne =>
      intro w hw
      rw [ewD, if_neg hne] at hw
      rcases List.mem_singleton.mp hw with rfl
      exact Or.inr (List.mem_singleton_self _)
  | case4 d ws' ih =>
      intro w hw
      rw [ewD, if_pos rfl] at hw
      rcases List.mem_append.mp hw with hw | hw
      · exact Or.inl hw
      · rcases ih w hw with hw | hw
        · exact Or.inl hw
        · exact Or.inr (List.mem_cons_of_mem _ (List.mem_cons_of_mem _ hw))
  | case5 w' d ws' hne ih =>
      intro w hw
      rw [ewD, if_neg hne] at hw
      rcases List.mem_cons.mp hw with rfl | hw
      · exact Or.inr (List.mem_cons_self _ _)
      · rcases ih w hw with hw | hw
        · exact Or.inl hw
        · exact Or.inr (List.mem_cons_of_mem _ hw)

end ExpandLemmas

section ExpandEnvDLemmas

theorem invD_cons_ne (w : PyStr) (hne : ¬ w = wDefname) (ws : List PyStr) :
    invD (w :: ws) = invD ws := by
  cases ws with
  | nil =>
      rw [invD]
      simp [hne, invD]
  | cons d ws' => rw [invD, if_neg hne]

theorem invD_pair (ws : List PyStr) : invD (wDefname :: ['D'] :: ws) = invD ws := by
  rw [invD, if_pos rfl]
  simp

theorem invD_ewD (ws : List PyStr) (h : invD ws = true) : invD (ewD ws) = true := by
  induction ws using ewD.induct with
  | case1 => rw [ewD]; exact h
  | case2 =>
      exact absurd h (by rw [invD]; simp)
  | case3 w hne =>
      rw [ewD, if_neg hne, invD]
      simp [hne]
  | case4 d ws' ih =>
      rw [invD, if_pos rfl, Bool.and_eq_true] at h
      rw [ewD, if_pos rfl]
      show invD (['('] :: wDefname :: ['D'] :: ['o', 'r'] :: ['X'] :: [')'] :: ewD ws') = true
      rw [invD_cons_ne _ (by decide), invD_pair, invD_cons_ne _ (by decide),
        invD_cons_ne _ (by decide), invD_cons_ne _ (by decide)]
      exact ih h.2
  | case5 w d ws' hne ih =>
      rw [invD_cons_ne _ hne] at h
      rw [ewD, if_neg hne, invD_cons_ne _ hne]
      exact ih h

theorem hasDf_ewD (ws : List PyStr) (h : invD ws = true) (hdf : wDefname ∈ ws) :
    wDefname ∈ ewD ws := by
  induction ws using ewD.induct with
  | case1 => cases hdf
  | case2 => exact absurd h (by rw [invD]; simp)
  | case3 w hne =>
      rcases List.mem_singleton.mp hdf with rfl
      exact absurd rfl hne
  | case4 d ws' ih =>
      rw [ewD, if_pos rfl]
      exact List.mem_append.mpr (Or.inl (by rw [segD]; simp))
  | case5 w d ws' hne ih =>
      rw [invD_cons_ne _ hne] at h
      have hdf' : wDefname ∈ d :: ws' := by
        rcases List.mem_cons.mp hdf with rfl | hdf'
        · exact absurd rfl hne
        · exact hdf'
      rw [ewD, if_neg hne]
      exact List.mem_cons_of_mem _ (ih h hdf')

theorem ewD_length_ge (ws : List PyStr) (h : invD ws = true) :
    ws.length ≤ (ewD ws).length := by
  induction ws using ewD.induct with
  | case1 => rw [ewD]
  | case2 => exact absurd h (by rw [invD]; simp)
  | case3 w hne => rw [ewD, if_neg hne]
  | case4 d ws' ih =>
      rw [invD, if_pos rfl, Bool.and_eq_true] at h
      rw [ewD, if_pos rfl]
      have hih := ih h.2
      have hseg : segD.length = 6 := rfl
      simp only [List.length_cons, List.length_append, hseg]
      omega
  | case5 w d ws' hne ih =>
      rw [invD_cons_ne _ hne] at h
      rw [ewD, if_neg hne]
      have hih := ih h
      simp only [List.length_cons] at hih ⊢
      omega

theorem ewD_length_gt (ws : List PyStr) (h : invD ws = true) (hdf : wDefname ∈ ws) :
    ws.length < (ewD ws).length := by
  induction ws using ewD.induct with
  | case1 => cases hdf
  | case2 => exact absurd h (by rw [invD]; simp)
  | case3 w hne =>
      rcases List.mem_singleton.mp hdf with rfl
      exact absurd rfl hne
  | case4 d ws' ih =>
      rw [invD, if_pos rfl, Bool.and_eq_true] at h
      rw [ewD, if_pos rfl]
      have hih := ewD_length_ge ws' h.2
      have hseg : segD.length = 6 := rfl
      simp only [List.length_cons, List.length_append, hseg]
      omega
  | case5 w d ws' hne ih =>
      rw [invD_cons_ne _ hne] at h
      have hdf' : wDefname ∈ d :: ws' := by
        rcases List.mem_cons.mp hdf with rfl | hdf'
        · exact absurd rfl hne
        · exact hdf'
      rw [ewD, if_neg hne]
      have hih := ih h hdf'
      simp only [List.length_cons] at hih ⊢
      omega

theorem expandStep_defname (env : DefEnv) (acc : PyStr) :
    expandStep env (acc, false) wDefname = .ok (acc, true) := by
  simp [expandStep]

theorem expandStep_plain (env : DefEnv) (acc w : PyStr) (hne : ¬ w = wDefname) :
    expandStep env (acc, false) w = .ok (acc ++ ' ' :: w, false) := by
  simp [expandStep, hne]

theorem expandStep_fail (env : DefEnv) (acc w : PyStr) (henv : env w = none) :
    expandStep env (acc, true) w = .error .samError := by
  simp [expandStep, henv]

theorem expandStep_expand (env : DefEnv) (acc w body : PyStr) (henv : env w = some body)
    (hor : ¬(pyFindOpt body patOrSp = none ∧ pyFindOpt body patMinusSp = none)) :
    expandStep env (acc, true) w =
      .ok (acc ++ (r" ( ").toList ++ body ++ (r" )").toList, false) := by
  simp [expandStep, henv, hor]

theorem expandStep_keep (env : DefEnv) (acc w body : PyStr) (henv : env w = some body)
    (hor : pyFindOpt body patOrSp = none) (hm : pyFindOpt body patMinusSp = none) :
    expandStep env (acc, true) w = .ok (acc ++ (' ' :: wDefname) ++ (' ' :: w), false) := by
  simp [expandStep, henv, hor, hm]

theorem expandGo_cons_ok (env : DefEnv) (ws : List PyStr) (st : PyStr × Bool) (w : PyStr)
    (st' : PyStr × Bool) (hstep : expandStep env st w = .ok st') :
    expandGo env (w :: ws) st = expandGo env ws st' := by
  rw [expandGo, hstep]

theorem expandGo_envD (ws : List PyStr) (h : invD ws = true) :
    ∀ acc, expandGo envD ws (acc, false) = .ok (acc ++ spacedJoin (ewD ws), false) := by
  induction ws using ewD.induct with
  | case1 => intro acc; rw [ewD]; simp [expandGo, spacedJoin]
  | case2 => exact absurd h (by rw [invD]; simp)
  | case3 w hne =>
      intro acc
      rw [expandGo_cons_ok envD [] (acc, false) w _ (expandStep_plain envD acc w hne)]
      rw [ewD, if_neg hne]
      simp [expandGo, spacedJoin]
  | case4 d ws' ih =>
      intro acc
      rw [invD, if_pos rfl, Bool.and_eq_true, decide_eq_true_eq] at h
      obtain ⟨hdD, hinv⟩ := h
      subst hdD
      rw [expandGo_cons_ok envD _ (acc, false) wDefname _ (expandStep_defname envD acc)]
      have henv : envD ['D'] = some ((r"defname: D or X").toList) := by rw [envD]; simp
      have hor : ¬(pyFindOpt ((r"defname: D or X").toList) patOrSp = none ∧
          pyFindOpt ((r"defname: D or X").toList) patMinusSp = none) := by decide
      rw [expandGo_cons_ok envD _ (acc, true) (['D']) _
        (expandStep_expand envD acc (['D']) _ henv hor)]
      rw [ih hinv]
      rw [ewD, if_pos rfl, spacedJoin_append]
      have hseg : spacedJoin segD =
          (r" ( ").toList ++ (r"defname: D or X").toList ++ (r" )").toList := by decide
      rw [hseg]
      simp [List.append_assoc]
  | case5 w d ws' hne ih =>
      intro acc
      rw [invD_cons_ne _ hne] at h
      rw [expandGo_cons_ok envD _ (acc, false) w _ (expandStep_plain envD acc w hne)]
      rw [ih h]
      rw [ewD, if_neg hne]
      show _ = .ok (acc ++ ((' ' :: w) ++ spacedJoin (ewD (d :: ws'))), false)
      simp [List.append_assoc]

theorem expandDefnames_envD (dim : PyStr) (h : invD (pySplitWs dim) = true) :
    expandDefnames envD dim = .ok (spacedJoin (ewD (pySplitWs dim))) := by
  rw [expandDefnames, expandGo_envD (pySplitWs dim) h []]
  rfl

end ExpandEnvDLemmas

theorem spacedJoin_cons (w : PyStr) (ws : List PyStr) :
    spacedJoin (w :: ws) = (' ' :: w) ++ spacedJoin ws := rfl

theorem expandFix_succ_ok (env : DefEnv) (fuel : Nat) (dim newdim : PyStr)
    (h : expandDefnames env dim = .ok newdim) :
    expandFix env (fuel + 1) dim =
      (if newdim = dim then .ok (some dim) else expandFix env fuel newdim) := by
  rw [expandFix, h]

section ExpandFixLemmas

theorem ewD_clean (ws : List PyStr) (hclean : ∀ w ∈ ws, noWsWord w = true) :
    ∀ w ∈ ewD ws, noWsWord w = true := by
  intro w hw
  rcases ewD_words ws w hw with hw | hw
  · rw [segD] at hw
    fin_cases hw <;> decide
  · exact hclean w hw

theorem expandFix_envD (fuel : Nat) :
    ∀ dim, invD (pySplitWs dim) = true → wDefname ∈ pySplitWs dim →
      expandFix envD fuel dim = .ok none := by
  induction fuel with
  | zero => intro dim _ _; rfl
  | succ n ih =>
      intro dim h hdf
      rw [expandFix_succ_ok envD n dim _ (expandDefnames_envD dim h)]
      have hclean : ∀ w ∈ ewD (pySplitWs dim), noWsWord w = true :=
        ewD_clean _ (pySplitWs_clean dim)
      have hsp : pySplitWs (spacedJoin (ewD (pySplitWs dim))) = ewD (pySplitWs dim) :=
        pySplitWs_spacedJoin _ hclean
      have hne : ¬ (spacedJoin (ewD (pySplitWs dim)) = dim) := by
        intro he
        have hlen := ewD_length_gt (pySplitWs dim) h hdf
        have : pySplitWs dim = ewD (pySplitWs dim) := by
          conv_lhs => rw [← he]
          exact hsp
        rw [← this] at hlen
        omega
      rw [if_neg hne]
      refine ih _ ?_ ?_
      · rw [hsp]; exact invD_ewD _ h
      · rw [hsp]; exact hasDf_ewD _ h hdf

end ExpandFixLemmas

/-- C5 is refuted: under the cyclic definition environment where D is defined
as 'defname: D or X', the defname expansion loop of listFiles never reaches a
fixed point on the input 'defname: D' — it diverges. -/
theorem c5_expand_loop_diverges :
    ¬ ∃ (fuel : Nat) (r : PyStr),
      expandFix envD fuel ((r"defname: D").toList) = .ok (some r) := by
  rintro ⟨fuel, r, hfix⟩
  have h1 : invD (pySplitWs ((r"defname: D").toList)) = true := by decide
  have h2 : wDefname ∈ pySplitWs ((r"defname: D").toList) := by decide
  rw [expandFix_envD fuel _ h1 h2] at hfix
  cases hfix

/-- Word-level effect of one expandDefnames pass when no definition body has
a top level or/minus clause: words pass through, except that a trailing
dangling 'defname:' is dropped. -/
def procDf : Bool → List PyStr → List PyStr
  | false, [] => []
  | true, [] => []
  | false, w :: ws => if w = wDefname then procDf true ws else w :: procDf false ws
  | true, w :: ws => wDefname :: w :: procDf false ws

/-- Environments in which every definition exists and no definition body
contains a top-level ' or ' or ' minus ' clause. -/
def orMinusFree (env : DefEnv) : Prop :=
  ∀ w, ∃ b, env w = some b ∧ pyFindOpt b patOrSp = none ∧ pyFindOpt b patMinusSp = none

section ProcDfLemmas

theorem procDf_false_cons (w : PyStr) (ws : List PyStr) :
    procDf false (w :: ws) =
      (if w = wDefname then procDf true ws else w :: procDf false ws) := rfl

theorem procDf_true_cons (w : PyStr) (ws : List PyStr) :
    procDf true (w :: ws) = wDefname :: w :: procDf false ws := rfl


theorem procDf_idem (ws : List PyStr) :
    procDf false (procDf false ws) = procDf false ws ∧
      procDf false (procDf true ws) = procDf true ws := by
  induction ws with
  | nil => exact ⟨rfl, rfl⟩
  | cons w ws ih =>
      constructor
      · by_cases hw : w = wDefname
        · rw [procDf, if_pos hw, ih.2]
        · rw [procDf, if_neg hw, procDf, if_neg hw, ih.1]
      · show procDf false (wDefname :: w :: procDf false ws) = _
        rw [procDf, if_pos rfl]
        show procDf true (w :: procDf false ws) = _
        rw [procDf, procDf, ih.1]

theorem procDf_words (ws : List PyStr) :
    ∀ flag w, w ∈ procDf flag ws → w = wDefname ∨ w ∈ ws := by
  induction ws with
  | nil => intro flag w hw; cases flag <;> cases hw
  | cons x ws ih =>
      intro flag w hw
      cases flag
      · rw [procDf] at hw
        by_cases hx : x = wDefname
        · rw [if_pos hx] at hw
          rcases ih true w hw with h | h
          · exact Or.inl h
          · exact Or.inr (List.mem_cons_of_mem _ h)
        · rw [if_neg hx] at hw
          rcases List.mem_cons.mp hw with rfl | hw
          · exact Or.inr (List.mem_cons_self _ _)
          · rcases ih false w hw with h | h
            · exact Or.inl h
            · exact Or.inr (List.mem_cons_of_mem _ h)
      · rw [procDf] at hw
        rcases List.mem_cons.mp hw with rfl | hw
        · exact Or.inl rfl
        · rcases List.mem_cons.mp hw with rfl | hw
          · exact Or.inr (List.mem_cons_self _ _)
          · rcases ih false w hw with h | h
            · exact Or.inl h
            · exact Or.inr (List.mem_cons_of_mem _ h)

theorem expandGo_free (env : DefEnv) (henv : orMinusFree env) (ws : List PyStr) :
    ∀ acc flag, ∃ endflag,
      expandGo env ws (acc, flag) = .ok (acc ++ spacedJoin (procDf flag ws), endflag) := by
  induction ws with
  | nil =>
      intro acc flag
      refine ⟨flag, ?_⟩
      cases flag <;> simp [expandGo, procDf, spacedJoin]
  | cons w ws ih =>
      intro acc flag
      cases flag
      · by_cases hw : w = wDefname
        · subst hw
          rw [expandGo_cons_ok env ws (acc, false) wDefname _ (expandStep_defname env acc)]
          obtain ⟨fl, hfl⟩ := ih acc true
          refine ⟨fl, ?_⟩
          rw [hfl, procDf_false_cons, if_pos rfl]
        · rw [expandGo_cons_ok env ws (acc, false) w _ (expandStep_plain env acc w hw)]
          obtain ⟨fl, hfl⟩ := ih (acc ++ ' ' :: w) false
          refine ⟨fl, ?_⟩
          rw [hfl, procDf_false_cons, if_neg hw, spacedJoin_cons]
          simp [List.append_assoc]
      · obtain ⟨b, hb, h1, h2⟩ := henv w
        rw [expandGo_cons_ok env ws (acc, true) w _ (expandStep_keep env acc w b hb h1 h2)]
        obtain ⟨fl, hfl⟩ := ih (acc ++ (' ' :: wDefname) ++ (' ' :: w)) false
        refine ⟨fl, ?_⟩
        rw [hfl, procDf_true_cons, spacedJoin_cons, spacedJoin_cons]
        simp [List.append_assoc]

theorem expandDefnames_free (env : DefEnv) (henv : orMinusFree env) (dim : PyStr) :
    expandDefnames env dim = .ok (spacedJoin (procDf false (pySplitWs dim))) := by
  obtain ⟨fl, hfl⟩ := expandGo_free env henv (pySplitWs dim) [] false
  rw [expandDefnames, hfl]
  rfl

theorem procDf_clean (ws : List PyStr) (hclean : ∀ w ∈ ws, noWsWord w = true) :
    ∀ w ∈ procDf false ws, noWsWord w = true := by
  intro w hw
  rcases procDf_words ws false w hw with rfl | hw
  · decide
  · exact hclean w hw

end ProcDfLemmas

/-- C5 amended: the defname expansion loop terminates (within two passes)
whenever every definition served by the environment exists and has no
top-level or/minus clause in its body; only a cyclically defined definition
whose body has a top-level or/minus clause makes it diverge. -/
theorem c5_expand_loop_terminates_amended (env : DefEnv) (henv : orMinusFree env)
    (dim : PyStr) : ∃ r, expandFix env 2 dim = .ok (some r) := by
  have h1 := expandDefnames_free env henv dim
  have hsp : pySplitWs (spacedJoin (procDf false (pySplitWs dim))) =
      procDf false (pySplitWs dim) :=
    pySplitWs_spacedJoin _ (procDf_clean _ (pySplitWs_clean dim))
  by_cases heq : spacedJoin (procDf false (pySplitWs dim)) = dim
  · refine ⟨dim, ?_⟩
    rw [expandFix_succ_ok env 1 dim _ h1, if_pos heq]
  · refine ⟨spacedJoin (procDf false (pySplitWs dim)), ?_⟩
    rw [expandFix_succ_ok env 1 dim _ h1, if_neg heq]
    have h2 := expandDefnames_free env henv (spacedJoin (procDf false (pySplitWs dim)))
    rw [hsp, (procDf_idem (pySplitWs dim)).1] at h2
    rw [expandFix_succ_ok env 0 _ _ h2, if_pos rfl]

/-- Witness for the amended C5 with a concrete or/minus-free environment and
a dimension containing a defname: clause. -/
theorem c5_expand_loop_terminates_amended_witness :
    ∃ r, expandFix (fun _ => some ((r"file_id 0").toList)) 2
      ((r"defname: mydef").toList) = .ok (some r) := by
  refine c5_expand_loop_terminates_amended _ ?_ _
  intro w
  exact ⟨(r"file_id 0").toList, rfl, by decide, by decide⟩

/-! ## project_utilities.tokenizeRPN -/

def wLP : PyStr := ['(']

def wRP : PyStr := [')']

def wOrTok : PyStr := ['o', 'r']

def wMinusTok : PyStr := ['m', 'i', 'n', 'u', 's']

def wIsParentOf : PyStr := (r"isparentof:(").toList

def wIsChildOf : PyStr := (r"ischildof:(").toList

/-- The mistyped sentinel checked by the or/minus handler of tokenizeRPN:
'ischildof:' without the opening parenthesis. -/
def wIsChildOfBad : PyStr := (r"ischildof:").toList

def wIsParentOfColon : PyStr := (r"isparentof:").toList

def patWithLimit : PyStr := (r"with limit").toList

def patIPsp : PyStr := (r"isparentof: ").toList

def patICsp : PyStr := (r"ischildof: ").toList

/-- Tokenizer state: operator stack temp (head = top), output result, and
the atom accumulator exp. -/
structure TkState where
  temp : List PyStr
  result : List PyStr
  exp : PyStr
  deriving DecidableEq

/-- The pop loop of the or/minus branch of tokenizeRPN. -/
def popOps : List PyStr → List PyStr → (List PyStr) × (List PyStr)
  | [], result => ([], result)
  | last :: temp', result =>
      if last = wLP ∨ last = wIsParentOf ∨ last = wIsChildOfBad then
        (last :: temp', result)
      else popOps temp' (result ++ [last])

/-- The pop loop of the ')' branch of tokenizeRPN; popping from an empty
temp raises IndexError. -/
def popParen : List PyStr → List PyStr → Except PyErr ((List PyStr) × (List PyStr))
  | [], _ => .error .indexError
  | last :: temp', result =>
      if last = wLP then .ok (temp', result)
      else if last = wIsParentOf then
        if result = [] ∨ result.getLast? = some wOrTok ∨ result.getLast? = some wMinusTok then
          .error (.runtimeError ((r"isparentof: parse error").toList))
        else
          .ok (temp', result.dropLast ++
            [(r"isparentof:( ").toList ++ (result.getLast?.getD []) ++ (r" )").toList])
      else if last = wIsChildOf then
        if result = [] ∨ result.getLast? = some wOrTok ∨ result.getLast? = some wMinusTok then
          .error (.runtimeError ((r"ischildof: parse error").toList))
        else
          .ok (temp', result.dropLast ++
            [(r"ischildof:( ").toList ++ (result.getLast?.getD []) ++ (r" )").toList])
      else popParen temp' (result ++ [last])

/-- Flush the pending atom into the output. -/
def flushExp (st : TkState) : TkState :=
  if st.exp ≠ [] then ⟨st.temp, st.result ++ [st.exp], []⟩ else st

/-- One word of the tokenizer loop. -/
def tkStep (st : TkState) (word : PyStr) : Except PyErr TkState :=
  if word = wLP ∨ word = wIsParentOf ∨ word = wIsChildOf then
    let st1 := flushExp st
    .ok ⟨word :: st1.temp, st1.result, []⟩
  else if word = wOrTok ∨ word = wMinusTok then
    let st1 := flushExp st
    let p := popOps st1.temp st1.result
    .ok ⟨word :: p.1, p.2, []⟩
  else if word = wRP then
    let st1 := flushExp st
    match popParen st1.temp st1.result with
    | .error e => .error e
    | .ok p => .ok ⟨p.1, p.2, []⟩
  else
    .ok ⟨st.temp, st.result, if st.exp = [] then word else st.exp ++ ' ' :: word⟩

/-- The word loop of tokenizeRPN. -/
def tkRun : List PyStr → TkState → Except PyErr TkState
  | [], st => .ok st
  | w :: ws, st =>
      match tkStep st w with
      | .error e => .error e
      | .ok st' => tkRun ws st'

/-- The two parenthesis-spacing replaces of tokenizeRPN. -/
def spaceParens (s : PyStr) : PyStr :=
  pyReplace wRP ((r" ) ").toList) (pyReplace wLP ((r" ( ").toList) s)

/-- The two isxxx: re-gluing replaces of tokenizeRPN. -/
def fixIsxxx (s : PyStr) : PyStr :=
  pyReplace patICsp wIsChildOfBad (pyReplace patIPsp wIsParentOfColon s)

/-- The head preprocessing of tokenizeRPN: space out parentheses, then
re-glue isparentof:/ischildof: to the opening parenthesis. -/
def tkFront (s : PyStr) : PyStr := fixIsxxx (spaceParens s)

/-- tokenizeRPN from project_utilities.py. -/
def tokenizeRPN (dim : PyStr) : Except PyErr (List PyStr) :=
  let hd_tl : PyStr × PyStr :=
    match pyFindOpt dim patWithLimit with
    | some n => (dim.take n, dim.drop n)
    | none => (dim, [])
  match tkRun (pySplitWs (tkFront hd_tl.1)) ⟨[], [], []⟩ with
  | .error e => .error e
  | .ok st =>
      let result1 := if st.exp ≠ [] then st.result ++ [st.exp] else st.result
      let result2 := result1 ++ st.temp
      let result3 := if hd_tl.2 ≠ [] then result2 ++ [hd_tl.2] else result2
      .ok result3

/-! ## Lemmas about pyReplace -/

/-- Character-by-character expansion map, the shape of single-character
replaces. -/
def cmap (f : Char → PyStr) : PyStr → PyStr
  | [] => []
  | c :: cs => f c ++ cmap f cs

section ReplaceLemmas

theorem cmap_append (f : Char → PyStr) (a b : PyStr) :
    cmap f (a ++ b) = cmap f a ++ cmap f b := by
  induction a with
  | nil => simp [cmap]
  | cons c cs ih => simp [cmap, ih]

theorem cmap_id_of (f : Char → PyStr) (s : PyStr) (h : ∀ c ∈ s, f c = [c]) :
    cmap f s = s := by
  induction s with
  | nil => rfl
  | cons c cs ih =>
      rw [cmap, h c (List.mem_cons_self c cs), ih (fun d hd => h d (List.mem_cons_of_mem c hd))]
      rfl

theorem replGo_nil (pat r : PyStr) (fuel : Nat) : replGo pat r fuel [] = [] := by
  cases fuel <;> rfl

theorem replGo_fuel (pat r : PyStr) (hpat : pat ≠ []) (fuel : Nat) :
    ∀ fuel' s, s.length ≤ fuel → s.length ≤ fuel' →
      replGo pat r fuel s = replGo pat r fuel' s := by
  induction fuel with
  | zero =>
      intro fuel' s hf hf'
      have : s = [] := List.length_eq_zero.mp (Nat.le_zero.mp hf)
      subst this
      rw [replGo_nil, replGo_nil]
  | succ n ih =>
      intro fuel' s hf hf'
      cases s with
      | nil => rw [replGo_nil, replGo_nil]
      | cons c cs =>
          cases fuel' with
          | zero => simp at hf'
          | succ m =>
              rw [replGo, replGo]
              by_cases hp : pyPrefixB pat (c :: cs) = true
              · rw [if_pos hp, if_pos hp]
                have hlen : ((c :: cs).drop pat.length).length ≤ n := by
                  have h1 : 1 ≤ pat.length := List.length_pos.mpr hpat
                  simp only [List.length_drop, List.length_cons] at *
                  omega
                have hlen' : ((c :: cs).drop pat.length).length ≤ m := by
                  have h1 : 1 ≤ pat.length := List.length_pos.mpr hpat
                  simp only [List.length_drop, List.length_cons] at *
                  omega
                rw [ih m _ hlen hlen']
              · rw [if_neg hp, if_neg hp]
                have hcs : cs.length ≤ n := by
                  simp only [List.length_cons] at hf; omega
                have hcs' : cs.length ≤ m := by
                  simp only [List.length_cons] at hf'; omega
                rw [ih m cs hcs hcs']

theorem pyPrefixB_self_append (pat s : PyStr) : pyPrefixB pat (pat ++ s) = true := by
  induction pat with
  | nil => rfl
  | cons c cs ih => simp [pyPrefixB, ih]

theorem pyReplace_single (c : Char) (r s : PyStr) :
    pyReplace [c] r s = cmap (fun d => if d = c then r else [d]) s := by
  rw [pyReplace, if_neg (by simp)]
  have : ∀ fuel s', s'.length ≤ fuel →
      replGo [c] r fuel s' = cmap (fun d => if d = c then r else [d]) s' := by
    intro fuel
    induction fuel with
    | zero =>
        intro s' hf
        have : s' = [] := List.length_eq_zero.mp (Nat.le_zero.mp hf)
        subst this
        rfl
    | succ n ih =>
        intro s' hf
        cases s' with
        | nil => rfl
        | cons d ds =>
            rw [replGo, cmap]
            have hds : ds.length ≤ n := by simp only [List.length_cons] at hf; omega
            by_cases hd : d = c
            · subst hd
              rw [if_pos (by simp [pyPrefixB]), if_pos rfl]
              simp only [List.length_singleton, List.drop_succ_cons, List.drop_zero]
              rw [ih ds hds]
            · have hcd : ¬ c = d := fun hh => hd hh.symm
              rw [if_neg (by simp [pyPrefixB, hcd]), if_neg hd]
              rw [ih ds hds]
              rfl
  exact this s.length s le_rfl

theorem pyReplace_nooccur (pat r s : PyStr) (h : occursB s pat = false) :
    pyReplace pat r s = s := by
  by_cases hpat : pat = []
  · rw [pyReplace, if_pos hpat]
  · rw [pyReplace, if_neg hpat]
    have : ∀ fuel s', s'.length ≤ fuel → occursB s' pat = false →
        replGo pat r fuel s' = s' := by
      intro fuel
      induction fuel with
      | zero =>
          intro s' hf _
          have : s' = [] := List.length_eq_zero.mp (Nat.le_zero.mp hf)
          subst this
          rfl
      | succ n ih =>
          intro s' hf hocc
          cases s' with
          | nil => rfl
          | cons c cs =>
              rw [occursB, Bool.or_eq_false_iff] at hocc
              rw [replGo, if_neg (by simp [hocc.1]), ih cs
                (by simp only [List.length_cons] at hf; omega) hocc.2]
    exact this s.length s le_rfl h

theorem pyReplace_head (pat r s : PyStr) (hpat : pat ≠ []) :
    pyReplace pat r (pat ++ s) = r ++ pyReplace pat r s := by
  rw [pyReplace, if_neg hpat, pyReplace, if_neg hpat]
  cases hp : pat with
  | nil => exact absurd hp hpat
  | cons p0 pt =>
      rw [← hp]
      have hlen : (pat ++ s).length = pat.length + s.length := List.length_append _ _
      have hne : pat ++ s ≠ [] := by
        intro hcon
        rcases List.append_eq_nil.mp hcon with ⟨h1, _⟩
        exact hpat h1
      rcases hps : pat ++ s with _ | ⟨c, cs⟩
      · exact absurd hps hne
      · rw [List.length_cons, replGo, if_pos (by rw [← hps]; exact pyPrefixB_self_append pat s)]
        have hdrop : (c :: cs).drop pat.length = s := by
          rw [← hps]
          exact List.drop_left pat s
        rw [hdrop]
        congr 1
        refine replGo_fuel pat r hpat _ _ _ ?_ le_rfl
        have h1 : 1 ≤ pat.length := List.length_pos.mpr hpat
        have : (c :: cs).length = pat.length + s.length := by rw [← hps]; exact hlen
        simp only [List.length_cons] at this
        omega

end ReplaceLemmas

/-! ## Tokenizer step lemmas -/

/-- A clean atom word: nonempty, no whitespace, no parentheses, not an
operator keyword. -/
def cleanTokWord (w : PyStr) : Bool :=
  decide (w ≠ []) &&
    w.all (fun c => !pyIsSpace c && !decide (c = '(') && !decide (c = ')')) &&
    !decide (w = wOrTok) && !decide (w = wMinusTok)

section TkStepLemmas

theorem cleanTokWord_facts (w : PyStr) (h : cleanTokWord w = true) :
    w ≠ [] ∧ (∀ c ∈ w, pyIsSpace c = false) ∧
      ¬(w = wLP ∨ w = wIsParentOf ∨ w = wIsChildOf) ∧
      ¬(w = wOrTok ∨ w = wMinusTok) ∧ ¬ w = wRP := by
  simp only [cleanTokWord, Bool.and_eq_true, decide_eq_true_eq, List.all_eq_true,
    Bool.not_eq_true', decide_eq_false_iff_not] at h
  obtain ⟨⟨⟨hne, hch⟩, hor⟩, hminus⟩ := h
  have hnp : ∀ c ∈ w, ¬ c = '(' := fun c hc => by
    have := hch c hc
    simp only [Bool.and_eq_true, Bool.not_eq_true', decide_eq_false_iff_not] at this
    exact this.1.2
  have hnq : ∀ c ∈ w, ¬ c = ')' := fun c hc => by
    have := hch c hc
    simp only [Bool.and_eq_true, Bool.not_eq_true', decide_eq_false_iff_not] at this
    exact this.2
  refine ⟨hne, ?_, ?_, ?_, ?_⟩
  · intro c hc
    have := hch c hc
    simp only [Bool.and_eq_true, Bool.not_eq_true', decide_eq_false_iff_not] at this
    simpa using this.1.1
  · rintro (rfl | rfl | rfl)
    · exact hnp '(' (by decide) rfl
    · exact hnp '(' (by rw [wIsParentOf]; decide) rfl
    · exact hnp '(' (by rw [wIsChildOf]; decide) rfl
  · rintro (rfl | rfl)
    · exact hor rfl
    · exact hminus rfl
  · rintro rfl
    exact hnq ')' (by decide) rfl

theorem tkRun_cons_ok (ws : List PyStr) (w : PyStr) (st st' : TkState)
    (h : tkStep st w = .ok st') : tkRun (w :: ws) st = tkRun ws st' := by
  rw [tkRun, h]

theorem tkRun_cons_err (ws : List PyStr) (w : PyStr) (st : TkState) (e : PyErr)
    (h : tkStep st w = .error e) : tkRun (w :: ws) st = .error e := by
  rw [tkRun, h]

theorem tkStep_group (st : TkState) (w : PyStr)
    (hw : w = wLP ∨ w = wIsParentOf ∨ w = wIsChildOf) :
    tkStep st w = .ok ⟨w :: (flushExp st).temp, (flushExp st).result, []⟩ := by
  rw [tkStep, if_pos hw]

theorem tkStep_op (st : TkState) (w : PyStr) (hw : w = wOrTok ∨ w = wMinusTok)
    (hng : ¬(w = wLP ∨ w = wIsParentOf ∨ w = wIsChildOf)) :
    tkStep st w = .ok ⟨w :: (popOps (flushExp st).temp (flushExp st).result).1,
      (popOps (flushExp st).temp (flushExp st).result).2, []⟩ := by
  rw [tkStep, if_neg hng, if_pos hw]

theorem tkStep_rp_ok (st : TkState) (p : (List PyStr) × (List PyStr))
    (hpop : popParen (flushExp st).temp (flushExp st).result = .ok p) :
    tkStep st wRP = .ok ⟨p.1, p.2, []⟩ := by
  rw [tkStep, if_neg (by decide), if_neg (by decide), if_pos rfl]
  simp only [hpop]

theorem tkStep_rp_err (st : TkState) (e : PyErr)
    (hpop : popParen (flushExp st).temp (flushExp st).result = .error e) :
    tkStep st wRP = .error e := by
  rw [tkStep, if_neg (by decide), if_neg (by decide), if_pos rfl]
  simp only [hpop]

theorem tkStep_atom (st : TkState) (w : PyStr)
    (h1 : ¬(w = wLP ∨ w = wIsParentOf ∨ w = wIsChildOf))
    (h2 : ¬(w = wOrTok ∨ w = wMinusTok)) (h3 : ¬ w = wRP) :
    tkStep st w =
      .ok ⟨st.temp, st.result, if st.exp = [] then w else st.exp ++ ' ' :: w⟩ := by
  rw [tkStep, if_neg h1, if_neg h2, if_neg h3]

theorem tokenizeRPN_eqn (dim : PyStr) (hWL : pyFindOpt dim patWithLimit = none) :
    tokenizeRPN dim =
      (match tkRun (pySplitWs (tkFront dim)) ⟨[], [], []⟩ with
       | .error e => .error e
       | .ok st =>
          .ok ((if st.exp ≠ [] then st.result ++ [st.exp] else st.result) ++ st.temp)) := by
  rw [tokenizeRPN, hWL]
  rfl

end TkStepLemmas

/-- C2 is refuted at the claim's own example: on 'ischildof:( A or B )' the
tokenizer raises IndexError (pop from an empty operator stack) instead of
returning a single group operand, because the or/minus handler checks for
the sentinel 'ischildof:' while the stack holds 'ischildof:('. -/
theorem c2_ischildof_or_counterexample :
    tokenizeRPN ((r"ischildof:( A or B )").toList) = .error .indexError := by rfl

/-! ## Front-end computation lemmas for tokenizeRPN -/

/-- Combined character map of the two parenthesis-spacing replaces. -/
def gPar (c : Char) : PyStr :=
  if c = '(' then (r" ( ").toList else if c = ')' then (r" ) ").toList else [c]

section FrontLemmas

theorem cmap_cmap (f g : Char → PyStr) (s : PyStr) :
    cmap g (cmap f s) = cmap (fun c => cmap g (f c)) s := by
  induction s with
  | nil => rfl
  | cons c cs ih => rw [cmap, cmap, cmap_append, ih]

theorem spaceParens_eq_cmap (s : PyStr) : spaceParens s = cmap gPar s := by
  rw [spaceParens]
  simp only [wLP, wRP]
  rw [pyReplace_single, pyReplace_single, cmap_cmap]
  congr 1
  funext c
  by_cases h1 : c = '('
  · subst h1; rfl
  · by_cases h2 : c = ')'
    · subst h2; rfl
    · simp [gPar, cmap, h1, h2]

theorem gPar_id (body : PyStr) (hbody : ∀ c ∈ body, ¬ c = '(' ∧ ¬ c = ')') :
    cmap gPar body = body := by
  refine cmap_id_of gPar body ?_
  intro c hc
  rw [gPar, if_neg (hbody c hc).1, if_neg (hbody c hc).2]

theorem tkFront_ip (body : PyStr) (hbody : ∀ c ∈ body, ¬ c = '(' ∧ ¬ c = ')')
    (hA : occursB (((r"(  ").toList) ++ body ++ ((r"  ) ").toList)) patIPsp = false)
    (hB : occursB (wIsParentOfColon ++ (((r"(  ").toList) ++ body ++ ((r"  ) ").toList)))
      patICsp = false) :
    tkFront (((r"isparentof:( ").toList) ++ body ++ ((r" )").toList)) =
      wIsParentOf ++ (' ' :: ' ' :: (body ++ ((r"  ) ").toList))) := by
  have e1 : spaceParens (((r"isparentof:( ").toList) ++ body ++ ((r" )").toList)) =
      patIPsp ++ (((r"(  ").toList) ++ body ++ ((r"  ) ").toList)) := by
    rw [spaceParens_eq_cmap, cmap_append, cmap_append, gPar_id body hbody]
    rfl
  rw [tkFront, e1, fixIsxxx]
  rw [pyReplace_head patIPsp wIsParentOfColon _ (by decide)]
  rw [pyReplace_nooccur _ _ _ hA]
  rw [pyReplace_nooccur _ _ _ hB]
  rfl

theorem tkFront_ic (body : PyStr) (hbody : ∀ c ∈ body, ¬ c = '(' ∧ ¬ c = ')')
    (hA : occursB (patICsp ++ (((r"(  ").toList) ++ body ++ ((r"  ) ").toList))) patIPsp = false)
    (hB : occursB (((r"(  ").toList) ++ body ++ ((r"  ) ").toList)) patICsp = false) :
    tkFront (((r"ischildof:( ").toList) ++ body ++ ((r" )").toList)) =
      wIsChildOf ++ (' ' :: ' ' :: (body ++ ((r"  ) ").toList))) := by
  have e1 : spaceParens (((r"ischildof:( ").toList) ++ body ++ ((r" )").toList)) =
      patICsp ++ (((r"(  ").toList) ++ body ++ ((r"  ) ").toList)) := by
    rw [spaceParens_eq_cmap, cmap_append, cmap_append, gPar_id body hbody]
    rfl
  rw [tkFront, e1, fixIsxxx]
  rw [pyReplace_nooccur _ _ _ hA]
  rw [pyReplace_head patICsp wIsChildOfBad _ (by decide)]
  rw [pyReplace_nooccur _ _ _ hB]
  rfl

theorem split_group1 (gfull x : PyStr) (hg : ∀ c ∈ gfull, pyIsSpace c = false)
    (hgne : gfull ≠ []) (hx1 : x ≠ []) (hx2 : ∀ c ∈ x, pyIsSpace c = false) :
    pySplitWs (gfull ++ (' ' :: ' ' :: (x ++ ((r"  ) ").toList)))) = [gfull, x, wRP] := by
  show splitAux (gfull ++ (' ' :: ' ' :: (x ++ ((r"  ) ").toList)))) [] = _
  rw [splitAux_word gfull hg _ [], List.nil_append]
  rw [splitAux_space _ _ hgne, splitAux_space_nil]
  rw [splitAux_word x hx2 _ [], List.nil_append]
  rw [show ((r"  ) ").toList) = ' ' :: ' ' :: ')' :: [' '] from rfl]
  rw [splitAux_space _ _ hx1, splitAux_space_nil]
  have h4 : splitAux (')' :: [' ']) [] = [wRP] := by decide
  rw [h4]

theorem split_group2 (gfull x y : PyStr) (hg : ∀ c ∈ gfull, pyIsSpace c = false)
    (hgne : gfull ≠ [])
    (hx1 : x ≠ []) (hx2 : ∀ c ∈ x, pyIsSpace c = false)
    (hy1 : y ≠ []) (hy2 : ∀ c ∈ y, pyIsSpace c = false) :
    pySplitWs (gfull ++ (' ' :: ' ' ::
        (x ++ (' ' :: (wOrTok ++ (' ' :: (y ++ ((r"  ) ").toList))))))))
      = [gfull, x, wOrTok, y, wRP] := by
  show splitAux _ [] = _
  rw [splitAux_word gfull hg _ [], List.nil_append]
  rw [splitAux_space _ _ hgne, splitAux_space_nil]
  rw [splitAux_word x hx2 _ [], List.nil_append]
  rw [splitAux_space _ _ hx1]
  rw [splitAux_word wOrTok (by decide) _ [], List.nil_append]
  rw [splitAux_space _ _ (by decide)]
  rw [splitAux_word y hy2 _ [], List.nil_append]
  rw [show ((r"  ) ").toList) = ' ' :: ' ' :: ')' :: [' '] from rfl]
  rw [splitAux_space _ _ hy1, splitAux_space_nil]
  have h4 : splitAux (')' :: [' ']) [] = [wRP] := by decide
  rw [h4]

end FrontLemmas

section TkRunGroupLemmas

theorem flushExp_of_ne (temp result : List PyStr) (x : PyStr) (hx : x ≠ []) :
    flushExp ⟨temp, result, x⟩ = ⟨temp, result ++ [x], []⟩ := by
  simp [flushExp, hx]

theorem flushExp_nil (temp result : List PyStr) :
    flushExp ⟨temp, result, []⟩ = ⟨temp, result, []⟩ := by
  simp [flushExp]

theorem notLastOp (x : PyStr) (hxo : ¬(x = wOrTok ∨ x = wMinusTok)) :
    ¬([x] = [] ∨ [x].getLast? = some wOrTok ∨ [x].getLast? = some wMinusTok) := by
  rintro (h | h | h)
  · cases h
  · simp only [List.getLast?_singleton, Option.some.injEq] at h
    exact hxo (Or.inl h)
  · simp only [List.getLast?_singleton, Option.some.injEq] at h
    exact hxo (Or.inr h)

theorem tkRun_group_ip (x : PyStr) (hx : cleanTokWord x = true) :
    tkRun [wIsParentOf, x, wRP] ⟨[], [], []⟩ =
      .ok ⟨[], [((r"isparentof:( ").toList) ++ x ++ ((r" )").toList)], []⟩ := by
  obtain ⟨hx1, _, hxg, hxo, hxr⟩ := cleanTokWord_facts x hx
  have s1 : tkStep ⟨[], [], []⟩ wIsParentOf = .ok ⟨[wIsParentOf], [], []⟩ := by
    rw [tkStep_group _ _ (Or.inr (Or.inl rfl)), flushExp_nil]
  have s2 : tkStep ⟨[wIsParentOf], [], []⟩ x = .ok ⟨[wIsParentOf], [], x⟩ := by
    rw [tkStep_atom _ _ hxg hxo hxr]
    rfl
  have hpop : popParen [wIsParentOf] [x] =
      .ok ([], [((r"isparentof:( ").toList) ++ x ++ ((r" )").toList)]) := by
    rw [popParen, if_neg (by decide), if_pos rfl, if_neg (notLastOp x hxo)]
    simp
  have s3 : tkStep ⟨[wIsParentOf], [], x⟩ wRP =
      .ok ⟨[], [((r"isparentof:( ").toList) ++ x ++ ((r" )").toList)], []⟩ := by
    have := tkStep_rp_ok ⟨[wIsParentOf], [], x⟩
      ([], [((r"isparentof:( ").toList) ++ x ++ ((r" )").toList)])
      (by rw [flushExp_of_ne _ _ _ hx1]; simpa using hpop)
    simpa using this
  rw [tkRun_cons_ok _ _ _ _ s1, tkRun_cons_ok _ _ _ _ s2, tkRun_cons_ok _ _ _ _ s3]
  rfl

theorem tkRun_group_ic (x : PyStr) (hx : cleanTokWord x = true) :
    tkRun [wIsChildOf, x, wRP] ⟨[], [], []⟩ =
      .ok ⟨[], [((r"ischildof:( ").toList) ++ x ++ ((r" )").toList)], []⟩ := by
  obtain ⟨hx1, _, hxg, hxo, hxr⟩ := cleanTokWord_facts x hx
  have s1 : tkStep ⟨[], [], []⟩ wIsChildOf = .ok ⟨[wIsChildOf], [], []⟩ := by
    rw [tkStep_group _ _ (Or.inr (Or.inr rfl)), flushExp_nil]
  have s2 : tkStep ⟨[wIsChildOf], [], []⟩ x = .ok ⟨[wIsChildOf], [], x⟩ := by
    rw [tkStep_atom _ _ hxg hxo hxr]
    rfl
  have hpop : popParen [wIsChildOf] [x] =
      .ok ([], [((r"ischildof:( ").toList) ++ x ++ ((r" )").toList)]) := by
    rw [popParen, if_neg (by decide), if_neg (by decide), if_pos rfl,
      if_neg (notLastOp x hxo)]
    simp
  have s3 : tkStep ⟨[wIsChildOf], [], x⟩ wRP =
      .ok ⟨[], [((r"ischildof:( ").toList) ++ x ++ ((r" )").toList)], []⟩ := by
    have := tkStep_rp_ok ⟨[wIsChildOf], [], x⟩
      ([], [((r"ischildof:( ").toList) ++ x ++ ((r" )").toList)])
      (by rw [flushExp_of_ne _ _ _ hx1]; simpa using hpop)
    simpa using this
  rw [tkRun_cons_ok _ _ _ _ s1, tkRun_cons_ok _ _ _ _ s2, tkRun_cons_ok _ _ _ _ s3]
  rfl

theorem tkRun_orgrp_ip (x y : PyStr) (hx : cleanTokWord x = true)
    (hy : cleanTokWord y = true) :
    tkRun [wIsParentOf, x, wOrTok, y, wRP] ⟨[], [], []⟩ =
      .error (.runtimeError ((r"isparentof: parse error").toList)) := by
  obtain ⟨hx1, _, hxg, hxo, hxr⟩ := cleanTokWord_facts x hx
  obtain ⟨hy1, _, hyg, hyo, hyr⟩ := cleanTokWord_facts y hy
  have s1 : tkStep ⟨[], [], []⟩ wIsParentOf = .ok ⟨[wIsParentOf], [], []⟩ := by
    rw [tkStep_group _ _ (Or.inr (Or.inl rfl)), flushExp_nil]
  have s2 : tkStep ⟨[wIsParentOf], [], []⟩ x = .ok ⟨[wIsParentOf], [], x⟩ := by
    rw [tkStep_atom _ _ hxg hxo hxr]
    rfl
  have s3 : tkStep ⟨[wIsParentOf], [], x⟩ wOrTok =
      .ok ⟨[wOrTok, wIsParentOf], [x], []⟩ := by
    rw [tkStep_op _ _ (Or.inl rfl) (by decide), flushExp_of_ne _ _ _ hx1]
    have hpop : popOps [wIsParentOf] ([] ++ [x]) = ([wIsParentOf], [x]) := by
      rw [popOps, if_pos (Or.inr (Or.inl rfl))]
      rfl
    dsimp only
    rw [hpop]
  have s4 : tkStep ⟨[wOrTok, wIsParentOf], [x], []⟩ y =
      .ok ⟨[wOrTok, wIsParentOf], [x], y⟩ := by
    rw [tkStep_atom _ _ hyg hyo hyr]
    rfl
  have hpop5 : popParen [wOrTok, wIsParentOf] [x, y] =
      .error (.runtimeError ((r"isparentof: parse error").toList)) := by
    rw [popParen, if_neg (by decide), if_neg (by decide), if_neg (by decide)]
    rw [popParen, if_neg (by decide), if_pos rfl,
      if_pos (Or.inr (Or.inl (by rw [List.getLast?_concat])))]
  have s5 : tkStep ⟨[wOrTok, wIsParentOf], [x], y⟩ wRP =
      .error (.runtimeError ((r"isparentof: parse error").toList)) := by
    refine tkStep_rp_err _ _ ?_
    rw [flushExp_of_ne _ _ _ hy1]
    simpa using hpop5
  rw [tkRun_cons_ok _ _ _ _ s1, tkRun_cons_ok _ _ _ _ s2, tkRun_cons_ok _ _ _ _ s3,
    tkRun_cons_ok _ _ _ _ s4, tkRun_cons_err _ _ _ _ s5]

theorem tkRun_orgrp_ic (x y : PyStr) (hx : cleanTokWord x = true)
    (hy : cleanTokWord y = true) :
    tkRun [wIsChildOf, x, wOrTok, y, wRP] ⟨[], [], []⟩ = .error .indexError := by
  obtain ⟨hx1, _, hxg, hxo, hxr⟩ := cleanTokWord_facts x hx
  obtain ⟨hy1, _, hyg, hyo, hyr⟩ := cleanTokWord_facts y hy
  have s1 : tkStep ⟨[], [], []⟩ wIsChildOf = .ok ⟨[wIsChildOf], [], []⟩ := by
    rw [tkStep_group _ _ (Or.inr (Or.inr rfl)), flushExp_nil]
  have s2 : tkStep ⟨[wIsChildOf], [], []⟩ x = .ok ⟨[wIsChildOf], [], x⟩ := by
    rw [tkStep_atom _ _ hxg hxo hxr]
    rfl
  have s3 : tkStep ⟨[wIsChildOf], [], x⟩ wOrTok =
      .ok ⟨[wOrTok], [x, wIsChildOf], []⟩ := by
    rw [tkStep_op _ _ (Or.inl rfl) (by decide), flushExp_of_ne _ _ _ hx1]
    have hpop : popOps [wIsChildOf] ([] ++ [x]) = ([], [x, wIsChildOf]) := by
      rw [popOps, if_neg (by decide)]
      rw [popOps]
      rfl
    dsimp only
    rw [hpop]
  have s4 : tkStep ⟨[wOrTok], [x, wIsChildOf], []⟩ y =
      .ok ⟨[wOrTok], [x, wIsChildOf], y⟩ := by
    rw [tkStep_atom _ _ hyg hyo hyr]
    rfl
  have hpop5 : popParen [wOrTok] [x, wIsChildOf, y] = .error .indexError := by
    rw [popParen, if_neg (by decide), if_neg (by decide), if_neg (by decide)]
    rw [popParen]
  have s5 : tkStep ⟨[wOrTok], [x, wIsChildOf], y⟩ wRP = .error .indexError := by
    refine tkStep_rp_err _ _ ?_
    rw [flushExp_of_ne _ _ _ hy1]
    simpa using hpop5
  rw [tkRun_cons_ok _ _ _ _ s1, tkRun_cons_ok _ _ _ _ s2, tkRun_cons_ok _ _ _ _ s3,
    tkRun_cons_ok _ _ _ _ s4, tkRun_cons_err _ _ _ _ s5]

end TkRunGroupLemmas

theorem cleanTokWord_noparen (w : PyStr) (h : cleanTokWord w = true) :
    ∀ c ∈ w, ¬ c = '(' ∧ ¬ c = ')' := by
  simp only [cleanTokWord, Bool.and_eq_true, List.all_eq_true] at h
  intro c hc
  have := h.1.1.2 c hc
  simp only [Bool.and_eq_true, Bool.not_eq_true', decide_eq_false_iff_not] at this
  exact ⟨this.1.2, this.2⟩

/-- C2 amended: an isparentof:(/ischildof:( group with a single clean operand
tokenizes to a single group operand token; but when the group contains an
'or', tokenizeRPN raises instead of confining the operator to the group:
RuntimeError('isparentof: parse error') for isparentof:, and IndexError for
ischildof: (whose or/minus-handler sentinel is the mistyped 'ischildof:'). -/
theorem c2_isxxx_groups_amended (x y : PyStr)
    (hx : cleanTokWord x = true) (hy : cleanTokWord y = true)
    (hWL1 : pyFindOpt (((r"isparentof:( ").toList) ++ x ++ ((r" )").toList))
      patWithLimit = none)
    (hWL2 : pyFindOpt (((r"ischildof:( ").toList) ++ x ++ ((r" )").toList))
      patWithLimit = none)
    (hWL3 : pyFindOpt (((r"isparentof:( ").toList) ++
      (x ++ ((r" or ").toList) ++ y) ++ ((r" )").toList)) patWithLimit = none)
    (hWL4 : pyFindOpt (((r"ischildof:( ").toList) ++
      (x ++ ((r" or ").toList) ++ y) ++ ((r" )").toList)) patWithLimit = none)
    (hA1 : occursB (((r"(  ").toList) ++ x ++ ((r"  ) ").toList)) patIPsp = false)
    (hB1 : occursB (wIsParentOfColon ++ (((r"(  ").toList) ++ x ++ ((r"  ) ").toList)))
      patICsp = false)
    (hA2 : occursB (patICsp ++ (((r"(  ").toList) ++ x ++ ((r"  ) ").toList)))
      patIPsp = false)
    (hB2 : occursB (((r"(  ").toList) ++ x ++ ((r"  ) ").toList)) patICsp = false)
    (hA3 : occursB (((r"(  ").toList) ++ (x ++ ((r" or ").toList) ++ y) ++
      ((r"  ) ").toList)) patIPsp = false)
    (hB3 : occursB (wIsParentOfColon ++ (((r"(  ").toList) ++
      (x ++ ((r" or ").toList) ++ y) ++ ((r"  ) ").toList))) patICsp = false)
    (hA4 : occursB (patICsp ++ (((r"(  ").toList) ++ (x ++ ((r" or ").toList) ++ y) ++
      ((r"  ) ").toList))) patIPsp = false)
    (hB4 : occursB (((r"(  ").toList) ++ (x ++ ((r" or ").toList) ++ y) ++
      ((r"  ) ").toList)) patICsp = false) :
    tokenizeRPN (((r"isparentof:( ").toList) ++ x ++ ((r" )").toList)) =
      .ok [((r"isparentof:( ").toList) ++ x ++ ((r" )").toList)] ∧
    tokenizeRPN (((r"ischildof:( ").toList) ++ x ++ ((r" )").toList)) =
      .ok [((r"ischildof:( ").toList) ++ x ++ ((r" )").toList)] ∧
    tokenizeRPN (((r"isparentof:( ").toList) ++ (x ++ ((r" or ").toList) ++ y) ++
        ((r" )").toList)) =
      .error (.runtimeError ((r"isparentof: parse error").toList)) ∧
    tokenizeRPN (((r"ischildof:( ").toList) ++ (x ++ ((r" or ").toList) ++ y) ++
        ((r" )").toList)) =
      .error .indexError := by
  obtain ⟨hx1, hxsp, _, _, _⟩ := cleanTokWord_facts x hx
  obtain ⟨hy1, hysp, _, _, _⟩ := cleanTokWord_facts y hy
  have hxnp := cleanTokWord_noparen x hx
  have hynp := cleanTokWord_noparen y hy
  have hbody2 : ∀ c ∈ x ++ ((r" or ").toList) ++ y, ¬ c = '(' ∧ ¬ c = ')' := by
    intro c hc
    rcases List.mem_append.mp hc with hc | hc
    · rcases List.mem_append.mp hc with hc | hc
      · exact hxnp c hc
      · fin_cases hc <;> exact ⟨by decide, by decide⟩
    · exact hynp c hc
  have hre : ∀ t : PyStr, (x ++ ((r" or ").toList) ++ y) ++ t =
      x ++ (' ' :: (wOrTok ++ (' ' :: (y ++ t)))) := by
    intro t
    simp [wOrTok, List.append_assoc]
  refine ⟨?_, ?_, ?_, ?_⟩
  · rw [tokenizeRPN_eqn _ hWL1, tkFront_ip x hxnp hA1 hB1,
      split_group1 wIsParentOf x (by decide) (by decide) hx1 hxsp,
      tkRun_group_ip x hx]
    simp
  · rw [tokenizeRPN_eqn _ hWL2, tkFront_ic x hxnp hA2 hB2,
      split_group1 wIsChildOf x (by decide) (by decide) hx1 hxsp,
      tkRun_group_ic x hx]
    simp
  · rw [tokenizeRPN_eqn _ hWL3, tkFront_ip _ hbody2 hA3 hB3, hre,
      split_group2 wIsParentOf x y (by decide) (by decide) hx1 hxsp hy1 hysp,
      tkRun_orgrp_ip x y hx hy]
  · rw [tokenizeRPN_eqn _ hWL4, tkFront_ic _ hbody2 hA4 hB4, hre,
      split_group2 wIsChildOf x y (by decide) (by decide) hx1 hxsp hy1 hysp,
      tkRun_orgrp_ic x y hx hy]

/-- Witness for the amended C2 at x = 'A', y = 'B'. -/
theorem c2_isxxx_groups_amended_witness :
    tokenizeRPN ((r"isparentof:( A )").toList) = .ok [(r"isparentof:( A )").toList] ∧
    tokenizeRPN ((r"ischildof:( A or B )").toList) = .error .indexError := by
  have h := c2_isxxx_groups_amended (['A']) (['B'])
    (by decide) (by decide) (by decide) (by decide) (by decide) (by decide)
    (by decide) (by decide) (by decide) (by decide) (by decide) (by decide)
    (by decide) (by decide)
  exact ⟨h.1, h.2.2.2⟩

section ListFilesEmbed

/-- Python sets of filenames are mutable heap objects; a `FileSet` is the
value stored at one heap address. -/
abbrev FileSet := List PyStr

/-- set(xs) as a duplicate-free list. -/
def pySetOf : List PyStr → FileSet
  | [] => []
  | x :: xs => if x ∈ pySetOf xs then pySetOf xs else x :: pySetOf xs

/-- set1 | set2. -/
def setUnion (s1 s2 : FileSet) : FileSet :=
  s1 ++ s2.filter (fun x => decide (¬ x ∈ s1))

/-- set2 - set1. -/
def setDiff (s2 s1 : FileSet) : FileSet :=
  s2.filter (fun x => decide (¬ x ∈ s1))

/-- Heap of set objects (address = index) and samcache, mapping a dimension
string to the ADDRESS of a set object: `samcache[item] = files` stores the
object itself, so later in-place mutation of the object is visible through
the cache. -/
structure SamState where
  store : List FileSet
  cache : List (PyStr × Nat)

def storeGet (st : List FileSet) (a : Nat) : FileSet := st.getD a []

def cacheGet : List (PyStr × Nat) → PyStr → Option Nat
  | [], _ => none
  | p :: ps, k => if p.1 = k then some p.2 else cacheGet ps k

/-- The samweb().listFiles backend: atomic dimension to list of filenames. -/
abbrev SamBackend := PyStr → List PyStr

/-- The RPN evaluation loop of listFiles (project_utilities.py lines 872-895).
Atoms are looked up in samcache, else fetched and cached; or/minus allocate a
fresh result object; a 'with limit n' item MUTATES the object at the
stack-top address in place (`while len(stack[-1]) > n: stack[-1].pop()`,
modeled deterministically as keeping the first n elements; set.pop of an
empty set, reached when n is negative, raises KeyError). -/
def evalStep (bk : SamBackend) (st : SamState) (stack : List Nat) (item : PyStr) :
    Except PyErr (SamState × List Nat) :=
  if item = wOrTok then
    match stack with
    | a1 :: a2 :: rest =>
        .ok (⟨st.store ++ [setUnion (storeGet st.store a1) (storeGet st.store a2)],
          st.cache⟩, st.store.length :: rest)
    | _ => .error .indexError
  else if item = wMinusTok then
    match stack with
    | a1 :: a2 :: rest =>
        .ok (⟨st.store ++ [setDiff (storeGet st.store a2) (storeGet st.store a1)],
          st.cache⟩, st.store.length :: rest)
    | _ => .error .indexError
  else if pyPrefixB patWithLimit item then
    match stack with
    | [] => .error .indexError
    | a :: _ =>
        match pyIntParse (item.drop 10) with
        | .error e => .error e
        | .ok n =>
            if n < 0 then .error .keyError
            else .ok (⟨st.store.set a ((storeGet st.store a).take n.toNat), st.cache⟩,
              stack)
  else
    match cacheGet st.cache item with
    | some a => .ok (st, a :: stack)
    | none =>
        .ok (⟨st.store ++ [pySetOf (bk item)], (item, st.store.length) :: st.cache⟩,
          st.store.length :: stack)

def evalGo (bk : SamBackend) : List PyStr → SamState → List Nat →
    Except PyErr (SamState × List Nat)
  | [], st, stack => .ok (st, stack)
  | item :: items, st, stack =>
      match evalStep bk st stack item with
      | .error e => .error e
      | .ok p => evalGo bk items p.1 p.2

/-- listFiles (project_utilities.py lines 820-901): cache check on the
original dim, defname: expansion to a fixed point (fuel models the unbounded
while loop; `none` = the loop did not converge within fuel), tokenizeRPN,
RPN evaluation, and the final `samcache[dim] = stack[-1]` under the EXPANDED
dimension. Returns the final state and the value of the result object. -/
def listFilesF (bk : SamBackend) (env : DefEnv) (fuel : Nat) (dim : PyStr)
    (st : SamState) : Option (Except PyErr (SamState × FileSet)) :=
  match cacheGet st.cache dim with
  | some a => some (.ok (st, storeGet st.store a))
  | none =>
      match expandFix env fuel dim with
      | .error e => some (.error e)
      | .ok none => none
      | .ok (some dim2) =>
          match tokenizeRPN dim2 with
          | .error e => some (.error e)
          | .ok rpn =>
              match evalGo bk rpn st [] with
              | .error e => some (.error e)
              | .ok (st2, stack) =>
                  match stack with
                  | [] => some (.error .indexError)
                  | a :: _ =>
                      some (.ok (⟨st2.store, (dim2, a) :: st2.cache⟩,
                        storeGet st2.store a))

/-- A backend with one dataset: dimension 'A' holds a single file f1.root. -/
def bkA : SamBackend := fun d => if d = ['A'] then [(r"f1.root").toList] else []

/-- No defname: definitions exist. -/
def envNone : DefEnv := fun _ => none

/-- Empty cache and heap. -/
def samInit : SamState := ⟨[], []⟩

/-- The state after listFiles('A with limit 0') from empty: the single heap
object has been emptied IN PLACE, and samcache maps both the expanded
dimension and the atom 'A' to its address. -/
def stPoisoned : SamState :=
  ⟨[[]], [((r" A with limit 0").toList, 0), ((r"A").toList, 0)]⟩

end ListFilesEmbed

/-- C1 is a code bug: memoization in listFiles is NOT semantically
transparent. The 'with limit' branch mutates the set object at the top of
the stack in place, and that object is the very object stored in samcache
for the atom that produced it. Concretely, with a backend where dimension
'A' holds one file f1.root: listFiles('A with limit 0') empties the cached
set for 'A' in place, so a subsequent listFiles('A') returns the empty set,
whereas listFiles('A') from an empty cache returns {'f1.root'}. -/
theorem c1_cache_poisoning :
    listFilesF bkA envNone 3 ((r"A with limit 0").toList) samInit
      = some (.ok (stPoisoned, [])) ∧
    listFilesF bkA envNone 3 ((r"A").toList) stPoisoned
      = some (.ok (stPoisoned, [])) ∧
    listFilesF bkA envNone 3 ((r"A").toList) samInit
      = some (.ok (⟨[[(r"f1.root").toList]],
          [((r" A").toList, 0), ((r"A").toList, 0)]⟩, [(r"f1.root").toList])) :=
  ⟨rfl, rfl, rfl⟩

/-! ## C3: the plain or/minus/parenthesis fragment of the dimension language -/

/-- Abstract syntax of the plain fragment: multiword atomic dimensions,
parenthesised subexpressions, and binary or (true) / minus (false) nodes.
Left associativity is expressed by the well-formedness predicate `goodE`,
which requires the right operand of every binary node to be a primary. -/
inductive PExpr where
  | atom : List PyStr → PExpr
  | paren : PExpr → PExpr
  | bin : PExpr → Bool → PExpr → PExpr
deriving DecidableEq

def opW (b : Bool) : PyStr := if b then wOrTok else wMinusTok

def isPrimB : PExpr → Bool
  | .atom _ => true
  | .paren _ => true
  | .bin _ _ _ => false

/-- Well-formed expressions: atoms are nonempty lists of clean words that do
not start with the 'with limit' pattern and contain no 'defname:' word, and
every right operand of a binary node is a primary (left associativity). -/
def goodE : PExpr → Bool
  | .atom ws => decide (ws ≠ []) && ws.all cleanTokWord &&
      !pyPrefixB patWithLimit (joinW ws) && !decide (wDefname ∈ ws)
  | .paren e => goodE e
  | .bin e1 _ p => goodE e1 && goodE p && isPrimB p

/-- The word rendering of an expression; the dimension string is these words
joined by single spaces. -/
def toksE : PExpr → List PyStr
  | .atom ws => ws
  | .paren e => wLP :: (toksE e ++ [wRP])
  | .bin e1 b p => toksE e1 ++ opW b :: toksE p

/-- The RPN (postfix) form of an expression, with each multiword atom glued
into a single token. -/
def rpnE : PExpr → List PyStr
  | .atom ws => [joinW ws]
  | .paren e => rpnE e
  | .bin e1 b p => rpnE e1 ++ rpnE p ++ [opW b]

/-- The pending-atom buffer left in the tokenizer state after processing an
expression. -/
def expE : PExpr → PyStr
  | .atom ws => joinW ws
  | .paren _ => []
  | .bin _ _ p => expE p

def flushE (e : PExpr) : List PyStr := if expE e = [] then [] else [expE e]

/-- The operator words left on the tokenizer operator stack after processing
an expression (topmost first). -/
def opsE : PExpr → List PyStr
  | .atom _ => []
  | .paren _ => []
  | .bin _ b p => opsE p ++ [opW b]

/-- The tokens appended to the tokenizer output while processing an
expression. -/
def preE : PExpr → List PyStr
  | .atom _ => []
  | .paren e => rpnE e
  | .bin e1 _ p => preE e1 ++ flushE e1 ++ opsE e1 ++ preE p

/-- REFERENCE semantics, written from the specification: an atom denotes the
set of files its dimension lists, or is set union, minus is set
difference. -/
def denoE (bk : SamBackend) : PExpr → Finset PyStr
  | .atom ws => (pySetOf (bk (joinW ws))).toFinset
  | .paren e => denoE bk e
  | .bin e1 b p => if b then denoE bk e1 ∪ denoE bk p else denoE bk e1 \ denoE bk p

section SYLemmas

theorem goodE_atom (ws : List PyStr) (h : goodE (.atom ws) = true) :
    ws ≠ [] ∧ (∀ w ∈ ws, cleanTokWord w = true) ∧
      pyPrefixB patWithLimit (joinW ws) = false ∧ ¬ wDefname ∈ ws := by
  simp only [goodE, Bool.and_eq_true, List.all_eq_true, decide_eq_true_eq,
    Bool.not_eq_true', decide_eq_false_iff_not] at h
  exact ⟨h.1.1.1, h.1.1.2, h.1.2, h.2⟩

theorem goodE_bin (e1 p : PExpr) (b : Bool) (h : goodE (.bin e1 b p) = true) :
    goodE e1 = true ∧ goodE p = true ∧ isPrimB p = true := by
  simp only [goodE, Bool.and_eq_true] at h
  exact ⟨h.1.1, h.1.2, h.2⟩

theorem joinW_cons (w : PyStr) (ws : List PyStr) :
    joinW (w :: ws) = w ++ spacedJoin ws := rfl

theorem joinW_ne_nil (ws : List PyStr) (h1 : ws ≠ [])
    (h2 : ∀ w ∈ ws, cleanTokWord w = true) : joinW ws ≠ [] := by
  cases ws with
  | nil => exact absurd rfl h1
  | cons w rest =>
      have hw := (cleanTokWord_facts w (h2 w (List.mem_cons_self w rest))).1
      rw [joinW_cons]
      intro hc
      exact hw (List.append_eq_nil.mp hc).1

theorem rpn_decomp (e : PExpr) (hg : goodE e = true) :
    rpnE e = preE e ++ flushE e ++ opsE e := by
  induction e with
  | atom ws =>
      obtain ⟨h1, h2, _, _⟩ := goodE_atom ws hg
      have : flushE (.atom ws) = [joinW ws] := by
        rw [flushE]
        simp [expE, joinW_ne_nil ws h1 h2]
      rw [rpnE, preE, opsE, this]
      rfl
  | paren e ih => rw [rpnE, preE, opsE, flushE]; simp [expE]
  | bin e1 b p ih1 ihp =>
      obtain ⟨hg1, hgp, hpr⟩ := goodE_bin e1 p b hg
      rw [rpnE, preE, opsE, ih1 hg1, ihp hgp]
      have : flushE (.bin e1 b p) = flushE p := by rw [flushE, flushE]; rfl
      rw [this]
      simp [List.append_assoc]

end SYLemmas

section SYStackLemmas

def opWord (w : PyStr) : Bool := decide (w = wOrTok) || decide (w = wMinusTok)

theorem opW_opWord (b : Bool) : opWord (opW b) = true := by
  cases b <;> decide

theorem opsE_ops (e : PExpr) : ∀ w ∈ opsE e, opWord w = true := by
  induction e with
  | atom ws => intro w hw; cases hw
  | paren e ih => intro w hw; cases hw
  | bin e1 b p ih1 ihp =>
      intro w hw
      rw [opsE] at hw
      rcases List.mem_append.mp hw with hw | hw
      · exact ihp w hw
      · rw [List.mem_singleton.mp hw]; exact opW_opWord b

theorem opWord_facts (w : PyStr) (h : opWord w = true) :
    ¬(w = wLP ∨ w = wIsParentOf ∨ w = wIsChildOfBad) ∧
      ¬ w = wLP ∧ ¬ w = wIsParentOf ∧ ¬ w = wIsChildOf := by
  simp only [opWord, Bool.or_eq_true, decide_eq_true_eq] at h
  rcases h with h | h <;> subst h <;> exact ⟨by decide, by decide, by decide, by decide⟩

theorem popOps_ops (ops : List PyStr) (hops : ∀ w ∈ ops, opWord w = true) :
    ∀ temp result, (temp = [] ∨ ∃ t, temp = wLP :: t) →
      popOps (ops ++ temp) result = (temp, result ++ ops) := by
  induction ops with
  | nil =>
      intro temp result hguard
      rcases hguard with h | ⟨t, h⟩ <;> subst h
      · simp [popOps]
      · rw [List.nil_append, popOps, if_pos (Or.inl rfl)]
        simp
  | cons o os ih =>
      intro temp result hguard
      have ho := (opWord_facts o (hops o (List.mem_cons_self o os))).1
      rw [List.cons_append, popOps, if_neg ho,
        ih (fun w hw => hops w (List.mem_cons_of_mem o hw)) temp (result ++ [o]) hguard]
      simp

theorem popParen_ops (ops : List PyStr) (hops : ∀ w ∈ ops, opWord w = true) :
    ∀ temp result, popParen (ops ++ wLP :: temp) result = .ok (temp, result ++ ops) := by
  induction ops with
  | nil =>
      intro temp result
      rw [List.nil_append, popParen, if_pos rfl]
      simp
  | cons o os ih =>
      intro temp result
      obtain ⟨_, h1, h2, h3⟩ := opWord_facts o (hops o (List.mem_cons_self o os))
      rw [List.cons_append, popParen, if_neg h1, if_neg h2, if_neg h3,
        ih (fun w hw => hops w (List.mem_cons_of_mem o hw)) temp (result ++ [o])]
      simp

theorem tkRun_words (ws : List PyStr) (h : ∀ w ∈ ws, cleanTokWord w = true) :
    ∀ cont temp result x, x ≠ [] →
      tkRun (ws ++ cont) ⟨temp, result, x⟩ =
        tkRun cont ⟨temp, result, x ++ spacedJoin ws⟩ := by
  induction ws with
  | nil => intro cont temp result x _; simp [spacedJoin]
  | cons w ws ih =>
      intro cont temp result x hx
      obtain ⟨hw1, _, hn1, hn2, hn3⟩ := cleanTokWord_facts w (h w (List.mem_cons_self w ws))
      rw [List.cons_append,
        tkRun_cons_ok _ _ _ _ (tkStep_atom ⟨temp, result, x⟩ w hn1 hn2 hn3)]
      simp only [if_neg hx]
      rw [ih (fun v hv => h v (List.mem_cons_of_mem w hv)) cont temp result
        (x ++ ' ' :: w) (by simp)]
      rw [spacedJoin_cons]
      simp

end SYStackLemmas

section SYMain

theorem flushExp_flushE (e : PExpr) (temp result : List PyStr) :
    flushExp ⟨temp, result, expE e⟩ = ⟨temp, result ++ flushE e, []⟩ := by
  by_cases h : expE e = []
  · rw [flushE, if_pos h, h, flushExp_nil]
    simp
  · rw [flushE, if_neg h, flushExp_of_ne temp result _ h]

theorem tkRun_sy (e : PExpr) (hg : goodE e = true) :
    ∀ cont temp result,
      (temp = [] ∨ (∃ t, temp = wLP :: t) ∨ isPrimB e = true) →
      tkRun (toksE e ++ cont) ⟨temp, result, []⟩ =
        tkRun cont ⟨opsE e ++ temp, result ++ preE e, expE e⟩ := by
  induction e with
  | atom ws =>
      intro cont temp result _
      obtain ⟨h1, h2, _, _⟩ := goodE_atom ws hg
      cases ws with
      | nil => exact absurd rfl h1
      | cons w rest =>
          obtain ⟨hw1, _, hn1, hn2, hn3⟩ :=
            cleanTokWord_facts w (h2 w (List.mem_cons_self w rest))
          rw [toksE, List.cons_append,
            tkRun_cons_ok _ _ _ _ (tkStep_atom ⟨temp, result, []⟩ w hn1 hn2 hn3)]
          rw [show (if ([] : PyStr) = [] then w else [] ++ ' ' :: w) = w from rfl]
          rw [tkRun_words rest (fun v hv => h2 v (List.mem_cons_of_mem w hv))
            cont temp result w hw1]
          rw [opsE, preE, expE, joinW_cons]
          simp
  | paren e ih =>
      intro cont temp result _
      have hg' : goodE e = true := hg
      rw [toksE, List.cons_append,
        tkRun_cons_ok _ _ _ _ (tkStep_group ⟨temp, result, []⟩ wLP (Or.inl rfl))]
      rw [flushExp_nil]
      rw [List.append_assoc,
        ih hg' ([wRP] ++ cont) (wLP :: temp) result (Or.inr (Or.inl ⟨temp, rfl⟩))]
      have hpop : popParen
          (flushExp ⟨opsE e ++ wLP :: temp, result ++ preE e, expE e⟩).temp
          (flushExp ⟨opsE e ++ wLP :: temp, result ++ preE e, expE e⟩).result
          = .ok (temp, (result ++ preE e ++ flushE e) ++ opsE e) := by
        rw [flushExp_flushE e (opsE e ++ wLP :: temp) (result ++ preE e)]
        exact popParen_ops (opsE e) (opsE_ops e) temp (result ++ preE e ++ flushE e)
      rw [show ([wRP] ++ cont) = wRP :: cont from rfl,
        tkRun_cons_ok _ _ _ _ (tkStep_rp_ok _ _ hpop)]
      rw [show preE (.paren e) = rpnE e from rfl, rpn_decomp e hg']
      rw [show opsE (.paren e) = ([] : List PyStr) from rfl,
        show expE (.paren e) = ([] : PyStr) from rfl]
      simp [List.append_assoc]
  | bin e1 b p ih1 ihp =>
      intro cont temp result hguard
      obtain ⟨hg1, hgp, hpr⟩ := goodE_bin e1 p b hg
      have hguardTF : temp = [] ∨ ∃ t, temp = wLP :: t := by
        rcases hguard with h | h | h
        · exact Or.inl h
        · exact Or.inr h
        · simp [isPrimB] at h
      have hguard1 : temp = [] ∨ (∃ t, temp = wLP :: t) ∨ isPrimB e1 = true := by
        rcases hguardTF with h | h
        · exact Or.inl h
        · exact Or.inr (Or.inl h)
      rw [toksE, List.append_assoc, ih1 hg1 _ temp result hguard1]
      have hop : opW b = wOrTok ∨ opW b = wMinusTok := by
        cases b
        · exact Or.inr rfl
        · exact Or.inl rfl
      have hng : ¬(opW b = wLP ∨ opW b = wIsParentOf ∨ opW b = wIsChildOf) := by
        cases b <;> decide
      rw [List.cons_append,
        tkRun_cons_ok _ _ _ _ (tkStep_op _ (opW b) hop hng)]
      rw [flushExp_flushE e1 (opsE e1 ++ temp) (result ++ preE e1)]
      rw [popOps_ops (opsE e1) (opsE_ops e1) temp (result ++ preE e1 ++ flushE e1)
        hguardTF]
      dsimp only
      rw [ihp hgp cont (opW b :: temp) _ (Or.inr (Or.inr hpr))]
      rw [show opsE (.bin e1 b p) = opsE p ++ [opW b] from rfl,
        show expE (.bin e1 b p) = expE p from rfl, preE]
      simp [List.append_assoc]

end SYMain

section SYFront

/-- Word classes that survive the parenthesis spacing: a lone parenthesis or
a whitespace-free parenthesis-free nonempty word. -/
def parWordP (w : PyStr) : Prop :=
  w = wLP ∨ w = wRP ∨
    (w ≠ [] ∧ (∀ c ∈ w, pyIsSpace c = false) ∧ ∀ c ∈ w, ¬ c = '(' ∧ ¬ c = ')')

theorem cleanTokWord_noWs (w : PyStr) (h : cleanTokWord w = true) :
    noWsWord w = true := by
  obtain ⟨h1, h2, _, _, _⟩ := cleanTokWord_facts w h
  simp only [noWsWord, Bool.and_eq_true, decide_eq_true_eq, List.all_eq_true]
  exact ⟨h1, fun c hc => by simp [h2 c hc]⟩

theorem toksE_par (e : PExpr) (hg : goodE e = true) : ∀ w ∈ toksE e, parWordP w := by
  induction e with
  | atom ws =>
      intro w hw
      obtain ⟨_, h2, _, _⟩ := goodE_atom ws hg
      obtain ⟨hw1, hw2, _, _, _⟩ := cleanTokWord_facts w (h2 w hw)
      exact Or.inr (Or.inr ⟨hw1, hw2, cleanTokWord_noparen w (h2 w hw)⟩)
  | paren e ih =>
      intro w hw
      rw [toksE] at hw
      rcases List.mem_cons.mp hw with hw | hw
      · exact Or.inl hw
      · rcases List.mem_append.mp hw with hw | hw
        · exact ih hg w hw
        · exact Or.inr (Or.inl (List.mem_singleton.mp hw))
  | bin e1 b p ih1 ihp =>
      intro w hw
      obtain ⟨hg1, hgp, _⟩ := goodE_bin e1 p b hg
      rw [toksE] at hw
      rcases List.mem_append.mp hw with hw | hw
      · exact ih1 hg1 w hw
      · rcases List.mem_cons.mp hw with hw | hw
        · subst hw
          cases b
          · exact Or.inr (Or.inr ⟨by decide, by decide, by decide⟩)
          · exact Or.inr (Or.inr ⟨by decide, by decide, by decide⟩)
        · exact ihp hgp w hw

theorem toksE_clean (e : PExpr) (hg : goodE e = true) :
    ∀ w ∈ toksE e, noWsWord w = true ∧ ¬ w = wDefname := by
  induction e with
  | atom ws =>
      intro w hw
      obtain ⟨_, h2, _, h4⟩ := goodE_atom ws hg
      exact ⟨cleanTokWord_noWs w (h2 w hw), fun hc => h4 (hc ▸ hw)⟩
  | paren e ih =>
      intro w hw
      rw [toksE] at hw
      rcases List.mem_cons.mp hw with hw | hw
      · subst hw; exact ⟨by decide, by decide⟩
      · rcases List.mem_append.mp hw with hw | hw
        · exact ih hg w hw
        · rw [List.mem_singleton.mp hw]; exact ⟨by decide, by decide⟩
  | bin e1 b p ih1 ihp =>
      intro w hw
      obtain ⟨hg1, hgp, _⟩ := goodE_bin e1 p b hg
      rw [toksE] at hw
      rcases List.mem_append.mp hw with hw | hw
      · exact ih1 hg1 w hw
      · rcases List.mem_cons.mp hw with hw | hw
        · subst hw
          cases b
          · exact ⟨by decide, by decide⟩
          · exact ⟨by decide, by decide⟩
        · exact ihp hgp w hw

theorem cmap_spacedJoin_cons (w : PyStr) (ws : List PyStr) :
    cmap gPar (spacedJoin (w :: ws)) =
      ' ' :: (cmap gPar w ++ cmap gPar (spacedJoin ws)) := by
  rw [spacedJoin_cons, cmap_append]
  rfl

theorem splitAux_gPar (ws : List PyStr) (h : ∀ w ∈ ws, parWordP w) :
    splitAux (cmap gPar (spacedJoin ws)) [] = ws := by
  induction ws with
  | nil => rfl
  | cons w rest ih =>
      have hw := h w (List.mem_cons_self w rest)
      have hrest : ∀ v ∈ rest, parWordP v := fun v hv => h v (List.mem_cons_of_mem w hv)
      have htail : splitAux (cmap gPar (spacedJoin rest)) [] = rest := ih hrest
      rw [cmap_spacedJoin_cons, splitAux_space_nil]
      rcases hw with hw | hw | ⟨hw1, hw2, hw3⟩
      · subst hw
        rw [show cmap gPar wLP = [' ', '(', ' '] from rfl]
        rw [show ([' ', '(', ' '] ++ cmap gPar (spacedJoin rest)) =
          ' ' :: (['('] ++ (' ' :: cmap gPar (spacedJoin rest))) from by simp]
        rw [splitAux_space_nil, splitAux_word ['('] (by decide)]
        rw [List.nil_append, splitAux_space _ ['('] (by decide), htail]
        rfl
      · subst hw
        rw [show cmap gPar wRP = [' ', ')', ' '] from rfl]
        rw [show ([' ', ')', ' '] ++ cmap gPar (spacedJoin rest)) =
          ' ' :: ([')'] ++ (' ' :: cmap gPar (spacedJoin rest))) from by simp]
        rw [splitAux_space_nil, splitAux_word [')'] (by decide)]
        rw [List.nil_append, splitAux_space _ [')'] (by decide), htail]
        rfl
      · rw [gPar_id w hw3, splitAux_word w hw2, List.nil_append]
        cases rest with
        | nil => simp [spacedJoin, cmap, splitAux, hw1]
        | cons w' rest' =>
            rw [cmap_spacedJoin_cons, splitAux_space _ w hw1]
            rw [cmap_spacedJoin_cons, splitAux_space_nil] at htail
            rw [htail]

theorem tkFront_plain (s : PyStr)
    (hIP : occursB (spaceParens s) patIPsp = false)
    (hIC : occursB (spaceParens s) patICsp = false) :
    tkFront s = spaceParens s := by
  rw [tkFront, fixIsxxx, pyReplace_nooccur _ _ _ hIP, pyReplace_nooccur _ _ _ hIC]

theorem pySplitWs_toksE (e : PExpr) (hg : goodE e = true)
    (hIP : occursB (spaceParens (spacedJoin (toksE e))) patIPsp = false)
    (hIC : occursB (spaceParens (spacedJoin (toksE e))) patICsp = false) :
    pySplitWs (tkFront (spacedJoin (toksE e))) = toksE e := by
  rw [tkFront_plain _ hIP hIC, spaceParens_eq_cmap, pySplitWs]
  exact splitAux_gPar (toksE e) (toksE_par e hg)

end SYFront

section SYPipe

theorem toksE_ne_nil (e : PExpr) (hg : goodE e = true) : toksE e ≠ [] := by
  induction e with
  | atom ws =>
      obtain ⟨h1, _, _, _⟩ := goodE_atom ws hg
      exact h1
  | paren e ih => rw [toksE]; exact List.cons_ne_nil _ _
  | bin e1 b p ih1 ihp =>
      obtain ⟨hg1, _, _⟩ := goodE_bin e1 p b hg
      rw [toksE]
      intro hc
      exact ih1 hg1 (List.append_eq_nil.mp hc).1

theorem tokenizeRPN_toksE (e : PExpr) (hg : goodE e = true)
    (hWL : pyFindOpt (spacedJoin (toksE e)) patWithLimit = none)
    (hIP : occursB (spaceParens (spacedJoin (toksE e))) patIPsp = false)
    (hIC : occursB (spaceParens (spacedJoin (toksE e))) patICsp = false) :
    tokenizeRPN (spacedJoin (toksE e)) = .ok (rpnE e) := by
  rw [tokenizeRPN_eqn _ hWL, pySplitWs_toksE e hg hIP hIC]
  have hsy := tkRun_sy e hg [] [] [] (Or.inl rfl)
  rw [List.append_nil] at hsy
  rw [hsy]
  rw [show tkRun [] (⟨opsE e ++ [], [] ++ preE e, expE e⟩ : TkState) =
    .ok ⟨opsE e ++ [], [] ++ preE e, expE e⟩ from rfl]
  dsimp only
  rw [rpn_decomp e hg]
  by_cases h : expE e = []
  · simp [flushE, h]
  · simp [flushE, h]

theorem expandGo_nodf (env : DefEnv) (ws : List PyStr)
    (h : ∀ w ∈ ws, ¬ w = wDefname) :
    ∀ acc, expandGo env ws (acc, false) = .ok (acc ++ spacedJoin ws, false) := by
  induction ws with
  | nil => intro acc; simp [expandGo, spacedJoin]
  | cons w ws ih =>
      intro acc
      rw [expandGo_cons_ok env ws _ w _
        (expandStep_plain env acc w (h w (List.mem_cons_self w ws)))]
      rw [ih (fun v hv => h v (List.mem_cons_of_mem w hv)) (acc ++ ' ' :: w)]
      rw [spacedJoin_cons]
      simp

theorem expandDefnames_nodf (env : DefEnv) (dim : PyStr) (ws : List PyStr)
    (hsplit : pySplitWs dim = ws) (h : ∀ w ∈ ws, ¬ w = wDefname) :
    expandDefnames env dim = .ok (spacedJoin ws) := by
  rw [expandDefnames, hsplit, expandGo_nodf env ws h []]
  rfl

/-- With no defname: words in the dimension, the expansion loop converges in
at most two passes to the space-led rejoining of the words, whatever the
definition environment. -/
theorem expandFix_nodf (env : DefEnv) (dim : PyStr) (ws : List PyStr)
    (hsplit : pySplitWs dim = ws)
    (hclean : ∀ w ∈ ws, noWsWord w = true)
    (h : ∀ w ∈ ws, ¬ w = wDefname) :
    expandFix env 3 dim = .ok (some (spacedJoin ws)) := by
  rw [show (3 : Nat) = 2 + 1 from rfl,
    expandFix_succ_ok env 2 dim (spacedJoin ws) (expandDefnames_nodf env dim ws hsplit h)]
  by_cases hfix : spacedJoin ws = dim
  · rw [if_pos hfix, hfix]
  · rw [if_neg hfix]
    rw [show (2 : Nat) = 1 + 1 from rfl,
      expandFix_succ_ok env 1 (spacedJoin ws) (spacedJoin ws)
        (expandDefnames_nodf env (spacedJoin ws) ws (pySplitWs_spacedJoin ws hclean) h)]
    rw [if_pos rfl]

end SYPipe

section EvalLemmas

theorem pySetOf_mem (l : List PyStr) : ∀ x, x ∈ pySetOf l ↔ x ∈ l := by
  induction l with
  | nil => intro x; simp [pySetOf]
  | cons y ys ih =>
      intro x
      rw [pySetOf]
      by_cases h : y ∈ pySetOf ys
      · rw [if_pos h, ih x]
        simp only [List.mem_cons]
        constructor
        · exact Or.inr
        · rintro (hc | hc)
          · rw [hc]; exact (ih y).mp h
          · exact hc
      · rw [if_neg h]
        simp [ih x]

theorem pySetOf_nodup (l : List PyStr) : (pySetOf l).Nodup := by
  induction l with
  | nil => simp [pySetOf]
  | cons y ys ih =>
      rw [pySetOf]
      by_cases h : y ∈ pySetOf ys
      · rw [if_pos h]; exact ih
      · rw [if_neg h]; exact List.Nodup.cons h ih

theorem pySetOf_toFinset (l : List PyStr) : (pySetOf l).toFinset = l.toFinset := by
  ext x
  simp [List.mem_toFinset, pySetOf_mem]

theorem setUnion_toFinset (s1 s2 : FileSet) :
    (setUnion s1 s2).toFinset = s1.toFinset ∪ s2.toFinset := by
  ext x
  simp only [setUnion, List.mem_toFinset, List.mem_append, List.mem_filter,
    Finset.mem_union, decide_eq_true_eq]
  constructor
  · rintro (h | ⟨h, _⟩)
    · exact Or.inl h
    · exact Or.inr h
  · rintro (h | h)
    · exact Or.inl h
    · by_cases h1 : x ∈ s1
      · exact Or.inl h1
      · exact Or.inr ⟨h, h1⟩

theorem setDiff_toFinset (s2 s1 : FileSet) :
    (setDiff s2 s1).toFinset = s2.toFinset \ s1.toFinset := by
  ext x
  simp [setDiff, List.mem_filter]

theorem setUnion_nodup (s1 s2 : FileSet) (h1 : s1.Nodup) (h2 : s2.Nodup) :
    (setUnion s1 s2).Nodup := by
  refine List.Nodup.append h1 (List.Nodup.filter _ h2) ?_
  intro x hx1 hx2
  rw [List.mem_filter] at hx2
  have hx3 := hx2.2
  simp only [decide_eq_true_eq] at hx3
  exact hx3 hx1

theorem setDiff_nodup (s2 s1 : FileSet) (h2 : s2.Nodup) : (setDiff s2 s1).Nodup :=
  List.Nodup.filter _ h2

theorem storeGet_append_lt (l ext : List FileSet) (a : Nat) (h : a < l.length) :
    storeGet (l ++ ext) a = storeGet l a := by
  induction l generalizing a with
  | nil => cases h
  | cons x xs ih =>
      cases a with
      | zero => rfl
      | succ a => exact ih a (Nat.lt_of_succ_lt_succ h)

theorem storeGet_snoc_len (l : List FileSet) (v : FileSet) :
    storeGet (l ++ [v]) l.length = v := by
  induction l with
  | nil => rfl
  | cons x xs ih => exact ih

theorem storeGet_mem (l : List FileSet) (a : Nat) (h : a < l.length) :
    storeGet l a ∈ l := by
  induction l generalizing a with
  | nil => cases h
  | cons x xs ih =>
      cases a with
      | zero => exact List.mem_cons_self x xs
      | succ a => exact List.mem_cons_of_mem x (ih a (Nat.lt_of_succ_lt_succ h))

theorem storeGet_set_self (l : List FileSet) (a : Nat) (v : FileSet) (h : a < l.length) :
    storeGet (l.set a v) a = v := by
  induction l generalizing a with
  | nil => cases h
  | cons x xs ih =>
      cases a with
      | zero => rfl
      | succ a => exact ih a (Nat.lt_of_succ_lt_succ h)

/-- The state invariant of the RPN loop: every cache entry points at an
in-bounds heap object holding the backend listing of its dimension, and
every heap object is duplicate-free. -/
def SamInv (bk : SamBackend) (st : SamState) : Prop :=
  (∀ k a, cacheGet st.cache k = some a →
      a < st.store.length ∧ storeGet st.store a = pySetOf (bk k)) ∧
  ∀ s ∈ st.store, s.Nodup

theorem SamInv_snoc (bk : SamBackend) (st : SamState) (v : FileSet)
    (hv : v.Nodup) (hInv : SamInv bk st) :
    SamInv bk ⟨st.store ++ [v], st.cache⟩ := by
  constructor
  · intro k a hk
    obtain ⟨h1, h2⟩ := hInv.1 k a hk
    have hlen : a < (st.store ++ [v]).length := by
      rw [List.length_append, List.length_singleton]; omega
    refine ⟨hlen, ?_⟩
    rw [storeGet_append_lt _ _ _ h1]
    exact h2
  · intro s hs
    rcases List.mem_append.mp hs with hs | hs
    · exact hInv.2 s hs
    · rw [List.mem_singleton.mp hs]; exact hv

theorem SamInv_alloc (bk : SamBackend) (st : SamState) (k : PyStr)
    (hInv : SamInv bk st) :
    SamInv bk ⟨st.store ++ [pySetOf (bk k)], (k, st.store.length) :: st.cache⟩ := by
  constructor
  · intro k' a hk'
    rw [cacheGet] at hk'
    by_cases hkk : k = k'
    · rw [if_pos hkk] at hk'
      obtain rfl : st.store.length = a := Option.some_injective _ hk'
      have hlen : st.store.length < (st.store ++ [pySetOf (bk k)]).length := by
        rw [List.length_append, List.length_singleton]; omega
      refine ⟨hlen, ?_⟩
      rw [storeGet_snoc_len, hkk]
    · rw [if_neg hkk] at hk'
      obtain ⟨h1, h2⟩ := hInv.1 k' a hk'
      have hlen : a < (st.store ++ [pySetOf (bk k)]).length := by
        rw [List.length_append, List.length_singleton]; omega
      refine ⟨hlen, ?_⟩
      rw [storeGet_append_lt _ _ _ h1]
      exact h2
  · intro s hs
    rcases List.mem_append.mp hs with hs | hs
    · exact hInv.2 s hs
    · rw [List.mem_singleton.mp hs]; exact pySetOf_nodup _

theorem evalGo_nil (bk : SamBackend) (st : SamState) (stack : List Nat) :
    evalGo bk [] st stack = .ok (st, stack) := rfl

theorem evalGo_cons_ok (bk : SamBackend) (items : List PyStr) (st : SamState)
    (stack : List Nat) (item : PyStr) (st' : SamState) (stack' : List Nat)
    (h : evalStep bk st stack item = .ok (st', stack')) :
    evalGo bk (item :: items) st stack = evalGo bk items st' stack' := by
  rw [evalGo, h]

theorem evalStep_or (bk : SamBackend) (st : SamState) (a1 a2 : Nat) (rest : List Nat) :
    evalStep bk st (a1 :: a2 :: rest) wOrTok =
      .ok (⟨st.store ++ [setUnion (storeGet st.store a1) (storeGet st.store a2)],
        st.cache⟩, st.store.length :: rest) := by
  rw [evalStep.eq_def, if_pos rfl]

theorem evalStep_minus (bk : SamBackend) (st : SamState) (a1 a2 : Nat)
    (rest : List Nat) :
    evalStep bk st (a1 :: a2 :: rest) wMinusTok =
      .ok (⟨st.store ++ [setDiff (storeGet st.store a2) (storeGet st.store a1)],
        st.cache⟩, st.store.length :: rest) := by
  rw [evalStep.eq_def, if_neg (by decide), if_pos rfl]

theorem evalStep_limit (bk : SamBackend) (st : SamState) (item : PyStr) (a : Nat)
    (rest : List Nat) (n : Int)
    (h1 : ¬ item = wOrTok) (h2 : ¬ item = wMinusTok)
    (h3 : pyPrefixB patWithLimit item = true)
    (h4 : pyIntParse (item.drop 10) = .ok n) (h5 : ¬ n < 0) :
    evalStep bk st (a :: rest) item =
      .ok (⟨st.store.set a ((storeGet st.store a).take n.toNat), st.cache⟩,
        a :: rest) := by
  rw [evalStep.eq_def, if_neg h1, if_neg h2, if_pos h3, h4]
  exact if_neg h5

theorem evalStep_atom_cached (bk : SamBackend) (st : SamState) (stack : List Nat)
    (item : PyStr) (a : Nat)
    (h1 : ¬ item = wOrTok) (h2 : ¬ item = wMinusTok)
    (h3 : ¬ pyPrefixB patWithLimit item = true)
    (h4 : cacheGet st.cache item = some a) :
    evalStep bk st stack item = .ok (st, a :: stack) := by
  rw [evalStep.eq_def, if_neg h1, if_neg h2, if_neg h3, h4]

theorem evalStep_atom_new (bk : SamBackend) (st : SamState) (stack : List Nat)
    (item : PyStr)
    (h1 : ¬ item = wOrTok) (h2 : ¬ item = wMinusTok)
    (h3 : ¬ pyPrefixB patWithLimit item = true)
    (h4 : cacheGet st.cache item = none) :
    evalStep bk st stack item =
      .ok (⟨st.store ++ [pySetOf (bk item)], (item, st.store.length) :: st.cache⟩,
        st.store.length :: stack) := by
  rw [evalStep.eq_def, if_neg h1, if_neg h2, if_neg h3, h4]

theorem joinW_not_op (ws : List PyStr) (h1 : ws ≠ [])
    (h2 : ∀ w ∈ ws, cleanTokWord w = true) :
    ¬ joinW ws = wOrTok ∧ ¬ joinW ws = wMinusTok := by
  cases ws with
  | nil => exact absurd rfl h1
  | cons w rest =>
      cases rest with
      | nil =>
          have hj : joinW [w] = w := by simp [joinW_cons, spacedJoin]
          obtain ⟨_, _, _, hop, _⟩ := cleanTokWord_facts w (h2 w (List.mem_cons_self w []))
          rw [hj]
          exact ⟨fun hc => hop (Or.inl hc), fun hc => hop (Or.inr hc)⟩
      | cons w2 rest2 =>
          have hsp : ' ' ∈ joinW (w :: w2 :: rest2) := by
            rw [joinW_cons, spacedJoin_cons]
            simp
          constructor
          · intro hc
            rw [hc] at hsp
            simp [wOrTok] at hsp
          · intro hc
            rw [hc] at hsp
            simp [wMinusTok] at hsp

end EvalLemmas

section EvalSound

theorem evalGo_sound (bk : SamBackend) (e : PExpr) (hg : goodE e = true) :
    ∀ items st stack, SamInv bk st →
      ∃ st' a, evalGo bk (rpnE e ++ items) st stack = evalGo bk items st' (a :: stack) ∧
        SamInv bk st' ∧ (∃ ext, st'.store = st.store ++ ext) ∧
        a < st'.store.length ∧ (storeGet st'.store a).Nodup ∧
        (storeGet st'.store a).toFinset = denoE bk e := by
  induction e with
  | atom ws =>
      intro items st stack hInv
      obtain ⟨h1, h2, h3, _⟩ := goodE_atom ws hg
      obtain ⟨hor, hminus⟩ := joinW_not_op ws h1 h2
      have hpre : ¬ pyPrefixB patWithLimit (joinW ws) = true := by
        rw [h3]; simp
      rw [show rpnE (.atom ws) = [joinW ws] from rfl, List.singleton_append]
      cases hc : cacheGet st.cache (joinW ws) with
      | some a =>
          obtain ⟨hlt, hval⟩ := hInv.1 (joinW ws) a hc
          refine ⟨st, a, ?_, hInv, ⟨[], by simp⟩, hlt, ?_, ?_⟩
          · rw [evalGo_cons_ok bk items st stack _ st (a :: stack)
              (evalStep_atom_cached bk st stack _ a hor hminus hpre hc)]
          · rw [hval]; exact pySetOf_nodup _
          · rw [hval, show denoE bk (.atom ws) = (pySetOf (bk (joinW ws))).toFinset
              from rfl]
      | none =>
          refine ⟨⟨st.store ++ [pySetOf (bk (joinW ws))],
            (joinW ws, st.store.length) :: st.cache⟩, st.store.length, ?_,
            SamInv_alloc bk st (joinW ws) hInv, ⟨[pySetOf (bk (joinW ws))], rfl⟩,
            ?_, ?_, ?_⟩
          · rw [evalGo_cons_ok bk items st stack _ _ _
              (evalStep_atom_new bk st stack _ hor hminus hpre hc)]
          · simp
          · rw [show storeGet (st.store ++ [pySetOf (bk (joinW ws))]) st.store.length =
              pySetOf (bk (joinW ws)) from storeGet_snoc_len _ _]
            exact pySetOf_nodup _
          · rw [show storeGet (st.store ++ [pySetOf (bk (joinW ws))]) st.store.length =
              pySetOf (bk (joinW ws)) from storeGet_snoc_len _ _]
            rfl
  | paren e ih =>
      intro items st stack hInv
      obtain ⟨st', a, heq, h4, h5, h6, h7, h8⟩ := ih hg items st stack hInv
      exact ⟨st', a, heq, h4, h5, h6, h7, h8⟩
  | bin e1 b p ih1 ihp =>
      intro items st stack hInv
      obtain ⟨hg1, hgp, _⟩ := goodE_bin e1 p b hg
      rw [show rpnE (.bin e1 b p) = rpnE e1 ++ rpnE p ++ [opW b] from rfl]
      rw [List.append_assoc, List.append_assoc]
      obtain ⟨st1, a1, heq1, hInv1, ⟨ext1, hst1⟩, hlt1, _, hval1⟩ :=
        ih1 hg1 (rpnE p ++ ([opW b] ++ items)) st stack hInv
      obtain ⟨st2, a2, heq2, hInv2, ⟨ext2, hst2⟩, hlt2, hnd2, hval2⟩ :=
        ihp hgp ([opW b] ++ items) st1 (a1 :: stack) hInv1
      have hlt1' : a1 < st2.store.length := by
        rw [hst2, List.length_append]; omega
      have hget1 : storeGet st2.store a1 = storeGet st1.store a1 := by
        rw [hst2]; exact storeGet_append_lt _ _ _ hlt1
      have hnd1' : (storeGet st2.store a1).Nodup :=
        hInv2.2 _ (storeGet_mem _ _ hlt1')
      have hval1' : (storeGet st2.store a1).toFinset = denoE bk e1 := by
        rw [hget1]; exact hval1
      cases b with
      | true =>
          refine ⟨⟨st2.store ++ [setUnion (storeGet st2.store a2) (storeGet st2.store a1)],
            st2.cache⟩, st2.store.length, ?_, ?_, ?_, ?_, ?_, ?_⟩
          · rw [heq1, heq2, show ([opW true] ++ items) = wOrTok :: items from rfl,
              evalGo_cons_ok bk items st2 (a2 :: a1 :: stack) _ _ _
                (evalStep_or bk st2 a2 a1 stack)]
          · exact SamInv_snoc bk st2 _ (setUnion_nodup _ _ hnd2 hnd1') hInv2
          · exact ⟨ext1 ++ ext2 ++ [setUnion (storeGet st2.store a2) (storeGet st2.store a1)],
              by rw [hst2, hst1]; simp⟩
          · simp
          · rw [storeGet_snoc_len]
            exact setUnion_nodup _ _ hnd2 hnd1'
          · rw [storeGet_snoc_len, setUnion_toFinset, hval2, hval1']
            rw [show denoE bk (.bin e1 true p) = denoE bk e1 ∪ denoE bk p from rfl]
            exact Finset.union_comm _ _
      | false =>
          refine ⟨⟨st2.store ++ [setDiff (storeGet st2.store a1) (storeGet st2.store a2)],
            st2.cache⟩, st2.store.length, ?_, ?_, ?_, ?_, ?_, ?_⟩
          · rw [heq1, heq2, show ([opW false] ++ items) = wMinusTok :: items from rfl,
              evalGo_cons_ok bk items st2 (a2 :: a1 :: stack) _ _ _
                (evalStep_minus bk st2 a2 a1 stack)]
          · exact SamInv_snoc bk st2 _ (setDiff_nodup _ _ hnd1') hInv2
          · exact ⟨ext1 ++ ext2 ++ [setDiff (storeGet st2.store a1) (storeGet st2.store a2)],
              by rw [hst2, hst1]; simp⟩
          · simp
          · rw [storeGet_snoc_len]
            exact setDiff_nodup _ _ hnd1'
          · rw [storeGet_snoc_len, setDiff_toFinset, hval2, hval1']
            rfl

end EvalSound

section C3Assembly

theorem samInit_inv (bk : SamBackend) : SamInv bk samInit := by
  constructor
  · intro k a hk
    simp [samInit, cacheGet] at hk
  · intro s hs
    simp [samInit] at hs

theorem listFilesF_eqn (bk : SamBackend) (env : DefEnv) (fuel : Nat) (dim : PyStr)
    (st : SamState) (dimx : PyStr) (rpn : List PyStr) (st2 : SamState) (a : Nat)
    (rest : List Nat)
    (hc : cacheGet st.cache dim = none)
    (hexp : expandFix env fuel dim = .ok (some dimx))
    (htok : tokenizeRPN dimx = .ok rpn)
    (heval : evalGo bk rpn st [] = .ok (st2, a :: rest)) :
    listFilesF bk env fuel dim st =
      some (.ok (⟨st2.store, (dimx, a) :: st2.cache⟩, storeGet st2.store a)) := by
  rw [listFilesF.eq_def, hc]
  dsimp only
  rw [hexp]
  dsimp only
  rw [htok]
  dsimp only
  rw [heval]

end C3Assembly

/-- C3 is confirmed: for every well-formed expression of the plain fragment
(multiword atomic dimensions, left-associative or/minus, balanced plain
parentheses; no defname:, isparentof:, ischildof: or 'with limit' clause,
expressed by the goodE predicate and the three string side conditions),
listFiles starting from an empty cache returns normally, and the returned
file set equals the recursive set-algebra reference semantics denoE:
atoms denote the backend listing as a set, or is set union, minus is set
difference. -/
theorem c3_listFiles_refines (bk : SamBackend) (env : DefEnv) (e : PExpr)
    (hg : goodE e = true)
    (hWL : pyFindOpt (spacedJoin (toksE e)) patWithLimit = none)
    (hIP : occursB (spaceParens (spacedJoin (toksE e))) patIPsp = false)
    (hIC : occursB (spaceParens (spacedJoin (toksE e))) patICsp = false) :
    ∃ st fs, listFilesF bk env 3 (joinW (toksE e)) samInit = some (.ok (st, fs)) ∧
      fs.toFinset = denoE bk e := by
  have hcl := toksE_clean e hg
  obtain ⟨st2, a, heq, hInv2, _, hlt, _, hval⟩ :=
    evalGo_sound bk e hg [] samInit [] (samInit_inv bk)
  rw [List.append_nil, evalGo_nil] at heq
  refine ⟨⟨st2.store, (spacedJoin (toksE e), a) :: st2.cache⟩, storeGet st2.store a,
    ?_, hval⟩
  exact listFilesF_eqn bk env 3 (joinW (toksE e)) samInit (spacedJoin (toksE e))
    (rpnE e) st2 a [] rfl
    (expandFix_nodf env (joinW (toksE e)) (toksE e)
      (pySplitWs_joinW _ (fun w hw => (hcl w hw).1)) (fun w hw => (hcl w hw).1)
      (fun w hw => (hcl w hw).2))
    (tokenizeRPN_toksE e hg hWL hIP hIC) heq

/-- A two-dataset backend for the C3 witness: dimension 'A' lists f1, f2 and
dimension 'B' lists f2, f3. -/
def bkAB : SamBackend := fun d =>
  if d = ['A'] then [(r"f1").toList, (r"f2").toList]
  else if d = ['B'] then [(r"f2").toList, (r"f3").toList]
  else []

/-- The expression 'A or B'. -/
def eAB : PExpr := .bin (.atom [['A']]) true (.atom [['B']])

/-- Witness for C3 at the concrete dimension 'A or B'. -/
theorem c3_listFiles_refines_witness :
    ∃ st fs, listFilesF bkAB (fun _ => none) 3 (joinW (toksE eAB)) samInit =
      some (.ok (st, fs)) ∧ fs.toFinset = denoE bkAB eAB :=
  c3_listFiles_refines bkAB (fun _ => none) eAB (by decide) (by decide)
    (by decide) (by decide)

section C6Lemmas

theorem isDigit_not_space (c : Char) (h : c.isDigit = true) : pyIsSpace c = false := by
  by_contra hc
  simp only [Bool.not_eq_false, pyIsSpace, decide_eq_true_eq] at hc
  rcases hc with rfl | rfl | rfl | rfl <;> exact absurd h (by decide)

theorem pyIsDigitStr_facts (s : PyStr) (h : pyIsDigitStr s = true) :
    s ≠ [] ∧ ∀ c ∈ s, c.isDigit = true := by
  simp only [pyIsDigitStr, Bool.and_eq_true, decide_eq_true_eq, List.all_eq_true] at h
  exact h

theorem dropWhile_nospace (l : PyStr) (h : ∀ c ∈ l, pyIsSpace c = false) :
    l.dropWhile pyIsSpace = l := by
  cases l with
  | nil => rfl
  | cons c cs =>
      rw [List.dropWhile_cons, h c (List.mem_cons_self c cs)]
      simp

theorem pyStrip_space (l : PyStr) : pyStrip (' ' :: l) = pyStrip l := by
  rw [pyStrip, pyStrip]
  have : List.dropWhile pyIsSpace (' ' :: l) = List.dropWhile pyIsSpace l := by
    rw [List.dropWhile_cons, show pyIsSpace ' ' = true from rfl]
    simp
  rw [this]

theorem pyStrip_clean (l : PyStr) (h : ∀ c ∈ l, pyIsSpace c = false) :
    pyStrip l = l := by
  rw [pyStrip, dropWhile_nospace l h,
    dropWhile_nospace l.reverse (fun c hc => h c (List.mem_reverse.mp hc)),
    List.reverse_reverse]

theorem pyIntParse_space_digits (s : PyStr) (h : pyIsDigitStr s = true) :
    pyIntParse (' ' :: s) = .ok (natOfDigits s : Int) := by
  obtain ⟨h1, h2⟩ := pyIsDigitStr_facts s h
  have hstrip : pyStrip (' ' :: s) = s := by
    rw [pyStrip_space, pyStrip_clean s (fun c hc => isDigit_not_space c (h2 c hc))]
  rw [pyIntParse.eq_def, hstrip]
  split
  · rename_i rest
    exact absurd (h2 ('-') (List.mem_cons_self _ _)) (by decide)
  · rename_i rest
    exact absurd (h2 ('+') (List.mem_cons_self _ _)) (by decide)
  · rw [if_pos h]

theorem take_append_cons (A R : PyStr) (c : Char) :
    (A ++ c :: R).take (A.length + 1) = A ++ [c] := by
  induction A with
  | nil => rfl
  | cons a as ih =>
      rw [List.cons_append, List.length_cons]
      rw [show as.length + 1 + 1 = (as.length + 1) + 1 from rfl, List.take_succ_cons, ih]
      rfl

theorem drop_append_cons (A R : PyStr) (c : Char) :
    (A ++ c :: R).drop (A.length + 1) = R := by
  induction A with
  | nil => rfl
  | cons a as ih =>
      rw [List.cons_append, List.length_cons]
      rw [show as.length + 1 + 1 = (as.length + 1) + 1 from rfl, List.drop_succ_cons, ih]

theorem pyPrefixB_self (p s : PyStr) : pyPrefixB p (p ++ s) = true := by
  induction p with
  | nil => rfl
  | cons c cs ih =>
      rw [List.cons_append, pyPrefixB]
      simp [ih]

theorem patWL_tail_ne_or (x : PyStr) : ¬ (patWithLimit ++ x = wOrTok) := by
  intro h
  have hh : ('w' : Char) = 'o' := congrArg (fun l => l.headI) h
  exact absurd hh (by decide)

theorem patWL_tail_ne_minus (x : PyStr) : ¬ (patWithLimit ++ x = wMinusTok) := by
  intro h
  have hh : ('w' : Char) = 'm' := congrArg (fun l => l.headI) h
  exact absurd hh (by decide)

end C6Lemmas

section C6Tok

theorem tokenizeRPN_limit_ok (dim : PyStr) (n : Nat) (st : TkState)
    (hWL : pyFindOpt dim patWithLimit = some n)
    (htk : tkRun (pySplitWs (tkFront (dim.take n))) ⟨[], [], []⟩ = .ok st)
    (htail : dim.drop n ≠ []) :
    tokenizeRPN dim =
      .ok (((if st.exp ≠ [] then st.result ++ [st.exp] else st.result) ++ st.temp)
        ++ [dim.drop n]) := by
  rw [tokenizeRPN, hWL]
  dsimp only
  rw [htk]
  dsimp only
  rw [if_pos htail]

theorem tokenizeRPN_toksE_limit (e : PExpr) (digits : PyStr) (hg : goodE e = true)
    (hWL6 : pyFindOpt (spacedJoin (toksE e ++
        [['w', 'i', 't', 'h'], ['l', 'i', 'm', 'i', 't'], digits]))
      patWithLimit = some ((spacedJoin (toksE e)).length + 1))
    (hIP : occursB (spaceParens (spacedJoin (toksE e) ++ [' '])) patIPsp = false)
    (hIC : occursB (spaceParens (spacedJoin (toksE e) ++ [' '])) patICsp = false) :
    tokenizeRPN (spacedJoin (toksE e ++
        [['w', 'i', 't', 'h'], ['l', 'i', 'm', 'i', 't'], digits])) =
      .ok (rpnE e ++ [patWithLimit ++ ' ' :: digits]) := by
  have hsj : spacedJoin [['w', 'i', 't', 'h'], ['l', 'i', 'm', 'i', 't'], digits] =
      ' ' :: (patWithLimit ++ ' ' :: digits) := by
    rw [spacedJoin_cons, spacedJoin_cons, spacedJoin_cons,
      show spacedJoin ([] : List PyStr) = [] from rfl, List.append_nil]
    rfl
  have hdim : spacedJoin (toksE e ++
      [['w', 'i', 't', 'h'], ['l', 'i', 'm', 'i', 't'], digits]) =
      spacedJoin (toksE e) ++ ' ' :: (patWithLimit ++ ' ' :: digits) := by
    rw [spacedJoin_append, hsj]
  rw [hdim] at hWL6 ⊢
  have hfront : pySplitWs (tkFront (spacedJoin (toksE e) ++ [' '])) = toksE e := by
    rw [tkFront_plain _ hIP hIC, spaceParens_eq_cmap, cmap_append,
      show cmap gPar [' '] = [' '] from rfl, pySplitWs,
      splitAux_trailing_space (cmap gPar (spacedJoin (toksE e))) []]
    exact splitAux_gPar (toksE e) (toksE_par e hg)
  have hsy := tkRun_sy e hg [] [] [] (Or.inl rfl)
  rw [List.append_nil] at hsy
  have htk0 : tkRun (toksE e) ⟨[], [], []⟩ = .ok ⟨opsE e, preE e, expE e⟩ := by
    rw [hsy]
    simp [tkRun]
  have htake : (spacedJoin (toksE e) ++ ' ' :: (patWithLimit ++ ' ' :: digits)).take
      ((spacedJoin (toksE e)).length + 1) = spacedJoin (toksE e) ++ [' '] :=
    take_append_cons _ _ _
  have hdrop : (spacedJoin (toksE e) ++ ' ' :: (patWithLimit ++ ' ' :: digits)).drop
      ((spacedJoin (toksE e)).length + 1) = patWithLimit ++ ' ' :: digits :=
    drop_append_cons _ _ _
  have htail : patWithLimit ++ ' ' :: digits ≠ [] := by
    show 'w' :: (List.drop 1 patWithLimit ++ ' ' :: digits) ≠ []
    exact List.cons_ne_nil _ _
  have hres := tokenizeRPN_limit_ok
    (spacedJoin (toksE e) ++ ' ' :: (patWithLimit ++ ' ' :: digits))
    ((spacedJoin (toksE e)).length + 1) ⟨opsE e, preE e, expE e⟩ hWL6
    (by rw [htake, hfront]; exact htk0) (by rw [hdrop]; exact htail)
  rw [hres, hdrop]
  rw [show (⟨opsE e, preE e, expE e⟩ : TkState).exp = expE e from rfl,
    show (⟨opsE e, preE e, expE e⟩ : TkState).result = preE e from rfl,
    show (⟨opsE e, preE e, expE e⟩ : TkState).temp = opsE e from rfl,
    rpn_decomp e hg]
  by_cases h : expE e = []
  · simp [flushE, h]
  · simp [flushE, h]

end C6Tok

/-- C6 is confirmed for dimension strings 'D with limit N' where D renders a
well-formed plain-fragment expression and N is a decimal literal: listFiles
from an empty cache returns normally with a subset of D's denotation whose
cardinality is min(N, |D|). The side conditions say that 'with limit'
occurs exactly once, at the boundary (the claim's requirement that it not
occur inside D), and that D has no isparentof:/ischildof: fragment. -/
theorem c6_with_limit_truncates (bk : SamBackend) (env : DefEnv) (e : PExpr)
    (digits : PyStr) (hg : goodE e = true) (hd : pyIsDigitStr digits = true)
    (hWL6 : pyFindOpt (spacedJoin (toksE e ++
        [['w', 'i', 't', 'h'], ['l', 'i', 'm', 'i', 't'], digits]))
      patWithLimit = some ((spacedJoin (toksE e)).length + 1))
    (hIP : occursB (spaceParens (spacedJoin (toksE e) ++ [' '])) patIPsp = false)
    (hIC : occursB (spaceParens (spacedJoin (toksE e) ++ [' '])) patICsp = false) :
    ∃ st fs, listFilesF bk env 3 (joinW (toksE e ++
        [['w', 'i', 't', 'h'], ['l', 'i', 'm', 'i', 't'], digits])) samInit =
      some (.ok (st, fs)) ∧
      fs.toFinset ⊆ denoE bk e ∧
      fs.toFinset.card = min (natOfDigits digits) (denoE bk e).card := by
  obtain ⟨hdg1, hdg2⟩ := pyIsDigitStr_facts digits hd
  have hdnoWs : noWsWord digits = true := by
    simp only [noWsWord, Bool.and_eq_true, decide_eq_true_eq, List.all_eq_true]
    exact ⟨hdg1, fun c hc => by simp [isDigit_not_space c (hdg2 c hc)]⟩
  have hcl := toksE_clean e hg
  have hclean6 : ∀ w ∈ toksE e ++
      [['w', 'i', 't', 'h'], ['l', 'i', 'm', 'i', 't'], digits], noWsWord w = true := by
    intro w hw
    rcases List.mem_append.mp hw with hw | hw
    · exact (hcl w hw).1
    · rcases List.mem_cons.mp hw with hw | hw
      · rw [hw]; decide
      · rcases List.mem_cons.mp hw with hw | hw
        · rw [hw]; decide
        · rw [List.mem_singleton.mp hw]; exact hdnoWs
  have hnodf6 : ∀ w ∈ toksE e ++
      [['w', 'i', 't', 'h'], ['l', 'i', 'm', 'i', 't'], digits], ¬ w = wDefname := by
    intro w hw
    rcases List.mem_append.mp hw with hw | hw
    · exact (hcl w hw).2
    · rcases List.mem_cons.mp hw with hw | hw
      · rw [hw]; decide
      · rcases List.mem_cons.mp hw with hw | hw
        · rw [hw]; decide
        · rw [List.mem_singleton.mp hw]
          intro heq
          exact absurd (hdg2 ('d') (heq ▸ (by decide : ('d' : Char) ∈ wDefname)))
            (by decide)
  obtain ⟨st2, a, heq, hInv2, _, hlt2, hnd2, hval⟩ :=
    evalGo_sound bk e hg [patWithLimit ++ ' ' :: digits] samInit [] (samInit_inv bk)
  have hparse : pyIntParse ((patWithLimit ++ ' ' :: digits).drop 10) =
      .ok (natOfDigits digits : Int) := pyIntParse_space_digits digits hd
  have hneg : ¬ (natOfDigits digits : Int) < 0 := by omega
  have hstep := evalStep_limit bk st2 (patWithLimit ++ ' ' :: digits) a []
    (natOfDigits digits : Int) (patWL_tail_ne_or _) (patWL_tail_ne_minus _)
    (pyPrefixB_self _ _) hparse hneg
  have htoNat : ((natOfDigits digits : Int)).toNat = natOfDigits digits := by omega
  rw [htoNat] at hstep
  have heval : evalGo bk (rpnE e ++ [patWithLimit ++ ' ' :: digits]) samInit [] =
      .ok (⟨st2.store.set a ((storeGet st2.store a).take (natOfDigits digits)),
        st2.cache⟩, [a]) := by
    rw [heq, evalGo_cons_ok bk [] st2 [a] _ _ _ hstep, evalGo_nil]
  have hfs : storeGet (st2.store.set a
      ((storeGet st2.store a).take (natOfDigits digits))) a =
      (storeGet st2.store a).take (natOfDigits digits) :=
    storeGet_set_self _ _ _ hlt2
  refine ⟨_, _, listFilesF_eqn bk env 3 _ samInit
    (spacedJoin (toksE e ++ [['w', 'i', 't', 'h'], ['l', 'i', 'm', 'i', 't'], digits]))
    (rpnE e ++ [patWithLimit ++ ' ' :: digits]) _ a [] rfl
    (expandFix_nodf env _ _ (pySplitWs_joinW _ hclean6) hclean6 hnodf6)
    (tokenizeRPN_toksE_limit e digits hg hWL6 hIP hIC) heval, ?_, ?_⟩
  · intro x hx
    rw [hfs, List.mem_toFinset] at hx
    rw [← hval, List.mem_toFinset]
    exact List.take_subset _ _ hx
  · rw [hfs,
      List.toFinset_card_of_nodup (List.Nodup.sublist (List.take_sublist _ _) hnd2),
      List.length_take, ← hval, List.toFinset_card_of_nodup hnd2]

/-- Witness for C6 at the concrete dimension 'A or B with limit 2'. -/
theorem c6_with_limit_truncates_witness :
    ∃ st fs, listFilesF bkAB (fun _ => none) 3 (joinW (toksE eAB ++
        [['w', 'i', 't', 'h'], ['l', 'i', 'm', 'i', 't'], ['2']])) samInit =
      some (.ok (st, fs)) ∧
      fs.toFinset ⊆ denoE bkAB eAB ∧
      fs.toFinset.card = min (natOfDigits ['2']) (denoE bkAB eAB).card :=
  c6_with_limit_truncates bkAB (fun _ => none) eAB (['2']) (by decide) (by decide)
    (by decide) (by decide) (by decide)
